import Mathlib

/-!
Verification development for the Lrama grammar-analysis core
(`src/server/src/parser.ts` class `LramaParser` and the `SymbolTable` module).

The TypeScript source is embedded shallowly:
* strings are `List Char` (`Str`), positions are 0-based `Nat` line/column;
* the scanner, parser and validator are translated function by function,
  keeping the source's names, branch order and mutation order;
* every loop of the source becomes a fuel-indexed structural recursion that
  returns `none` when the fuel runs out; `analyze` instantiates the fuel with
  an input-size bound, and the termination theorem shows the bound suffices
  (the loops strictly advance their cursor, exactly as in the source).
-/

namespace Lrama

abbrev Str := List Char

/-- 0-based line/character position (mirrors the LSP `Position` record). -/
structure Pos where
  line : Nat
  character : Nat
deriving DecidableEq, Repr

/-- Half-open character range; `endPos` stands for the source field `end`
(a reserved word in Lean). -/
structure DocRange where
  start : Pos
  endPos : Pos
deriving DecidableEq, Repr

/-- Token kinds produced by `LramaParser.tokenize` (the `type` strings of the
source's `Token` interface). -/
inductive TokenType where
  | SEPARATOR
  | PROLOGUE_START
  | PROLOGUE_END
  | DIRECTIVE
  | IDENTIFIER
  | STRING
  | CHARACTER
  | TYPE_TAG
  | SPECIAL
deriving DecidableEq, Repr

/-- `Token` interface of parser.ts. -/
structure Token where
  type : TokenType
  value : Str
  line : Nat
  column : Nat
  length : Nat
deriving DecidableEq, Repr

/-! ## Scanner (`LramaParser.tokenize`) -/

/-- The JavaScript regular-expression class `\\s` (White_Space code points
plus the BOM, written here with explicit code-point escapes). -/
def isJsSpace (c : Char) : Bool :=
  c = ' ' || c = '\t' || c = '\n' || c = '\x0b' || c = '\x0c' || c = '\r' ||
  c = '\u00A0' || c = '\u1680' ||
  (('\u2000' : Char) ≤ c && c ≤ ('\u200A' : Char)) ||
  c = '\u2028' || c = '\u2029' || c = '\u202F' || c = '\u205F' ||
  c = '\u3000' || c = '\uFEFF'

/-- First character of the identifier regex `[a-zA-Z_]`. -/
def isIdentStart (c : Char) : Bool :=
  (('a' : Char) ≤ c && c ≤ ('z' : Char)) ||
  (('A' : Char) ≤ c && c ≤ ('Z' : Char)) || c = '_'

/-- Continuation characters of the identifier regex `[a-zA-Z0-9_\-]`. -/
def isIdentCont (c : Char) : Bool :=
  isIdentStart c || (('0' : Char) ≤ c && c ≤ ('9' : Char)) || c = '-'

/-- The special-character set `":;|()[]{},.?*+"` tested with `includes`. -/
def specialChars : Str :=
  [':', ';', '|', '(', ')', '[', ']', '\x7b', '\x7d', ',', '.', '?', '*', '+']

/-- The alternatives of the directive regular expression, in the source's
alternation order (a JS regex alternation takes the first alternative that
matches, not the longest). -/
def directiveSpellings : List Str :=
  ["rule".data, "inline".data, "token".data, "type".data, "nterm".data,
   "start".data, "union".data, "left".data, "right".data, "nonassoc".data,
   "precedence".data, "prec".data, "empty".data, "destructor".data,
   "printer".data, "locations".data, "no-stdlib".data, "define".data,
   "after-shift".data, "before-reduce".data, "after-reduce".data,
   "after-shift-error-token".data, "after-pop-stack".data, "debug".data,
   "error-verbose".data]

/-- First directive spelling (in alternation order) that is a prefix of
`rest`, the text following the percent sign. -/
def directiveFirstMatch (rest : Str) : Option Str :=
  directiveSpellings.find? (fun w => w.isPrefixOf rest)

/-- `l.indexOf(pat, start)` on JS strings: the least index `i ≥ start` at
which `pat` occurs in `l` (`none` for JS's `-1`). -/
def findSubFrom (pat l : Str) (start : Nat) : Option Nat :=
  (List.range (l.length + 1)).find?
    (fun i => decide (start ≤ i) && pat.isPrefixOf (l.drop i))

/-- End-quote search shared by string and character literals: the first index
`e ≥ col+1` with `line[e] = q` not preceded by a backslash (the source's
`while` loop over `endQuote`); `none` when the loop runs off the line. -/
def findQuoteEnd (line : Str) (col : Nat) (q : Char) : Option Nat :=
  (List.range line.length).find?
    (fun e => decide (col + 1 ≤ e) && (line.getD e ' ' = q) &&
      !(line.getD (e - 1) ' ' = '\\'))

/-- `text.split("\n")` (keeps a trailing empty line, `[""]` on empty input). -/
def splitNl : Str → List Str
  | [] => [[]]
  | c :: rest =>
    if c = '\n' then [] :: splitNl rest
    else
      match splitNl rest with
      | [] => [[c]]
      | l :: ls => (c :: l) :: ls

/-- One iteration of the scanner's inner `while (column < line.length)` loop
at column `col`: `none` means the rest of the line is discarded (a `break` in
the source); `some (tok?, col')` emits `tok?` and moves the column to `col'`.
The branch order is exactly the source's. -/
def scanStep (text line : Str) (lineNum col : Nat) : Option (Option Token × Nat) :=
  let c := line.getD col ' '
  let t2 := (line.drop col).take 2
  -- Skip whitespace
  if isJsSpace c then some (none, col + 1)
  -- Skip line comments
  else if t2 = "//".data then none
  -- Skip block comments: the source only handles the comment when a close
  -- marker exists in `text` at or after `text.indexOf(line) + column + 2`;
  -- otherwise control falls through to the remaining checks.
  else if t2 = "/*".data &&
      (findSubFrom "*/".data text
        ((findSubFrom line text 0).getD 0 + col + 2)).isSome then
    match findSubFrom "*/".data line (col + 2) with
    | some e => some (none, e + 2)
    | none => none -- comment continues to next line: discard rest of line
  -- Check for %% separator
  else if t2 = "%%".data then
    some (some ⟨.SEPARATOR, "%%".data, lineNum, col, 2⟩, col + 2)
  -- Check for %{ prologue start
  else if t2 = "%\x7b".data then
    some (some ⟨.PROLOGUE_START, "%\x7b".data, lineNum, col, 2⟩, col + 2)
  -- Check for %} prologue end
  else if t2 = "%\x7d".data then
    some (some ⟨.PROLOGUE_END, "%\x7d".data, lineNum, col, 2⟩, col + 2)
  else
    -- Check for directives
    match (if c = '%' then directiveFirstMatch (line.drop (col + 1)) else none) with
    | some w =>
      some (some ⟨.DIRECTIVE, '%' :: w, lineNum, col, w.length + 1⟩,
        col + (w.length + 1))
    | none =>
    -- Check for identifiers
    match (if isIdentStart c then
        some (c :: (line.drop (col + 1)).takeWhile isIdentCont) else none) with
    | some iv =>
      some (some ⟨.IDENTIFIER, iv, lineNum, col, iv.length⟩, col + iv.length)
    | none =>
    -- Check for strings
    match (if c = '"' then findQuoteEnd line col '"' else none) with
    | some e =>
      let v := (line.take (e + 1)).drop col
      some (some ⟨.STRING, v, lineNum, col, v.length⟩, e + 1)
    | none =>
    -- Check for character literals
    match (if c = '\'' then findQuoteEnd line col '\'' else none) with
    | some e =>
      let v := (line.take (e + 1)).drop col
      some (some ⟨.CHARACTER, v, lineNum, col, v.length⟩, e + 1)
    | none =>
    -- Check for type tags
    match (if c = '<' then
        (List.range line.length).find?
          (fun e => decide (col + 1 ≤ e) && (line.getD e ' ' = '>'))
      else none) with
    | some e =>
      let v := (line.take e).drop (col + 1)
      some (some ⟨.TYPE_TAG, v, lineNum, col, e - col + 1⟩, e + 1)
    | none =>
    -- Check for special characters
    if specialChars.contains c then
      some (some ⟨.SPECIAL, [c], lineNum, col, 1⟩, col + 1)
    -- Skip unknown characters
    else some (none, col + 1)

/-- The scanner's inner loop over one line, driven by `scanStep`; `fuel`
bounds the iteration count (`none` = fuel exhausted, never happens when
`fuel > line.length - col`, see `tokenizeLine_suff`). -/
def tokenizeLine (text line : Str) (lineNum : Nat) : Nat → Nat → Option (List Token)
  | 0, _ => none
  | fuel + 1, col =>
    if col < line.length then
      match scanStep text line lineNum col with
      | none => some []
      | some (tok?, col') =>
        (tokenizeLine text line lineNum fuel col').map
          (fun ts => tok?.toList ++ ts)
    else some []

/-- Scan the enumerated lines in order, concatenating their tokens. -/
def tokenizeLines (text : Str) : List (Nat × Str) → Option (List Token)
  | [] => some []
  | (lineNum, line) :: rest => do
    let a ← tokenizeLine text line lineNum (line.length + 1) 0
    let b ← tokenizeLines text rest
    some (a ++ b)

/-- `LramaParser.tokenize`: split into lines and scan each line left to
right. -/
def tokenize (text : Str) : Option (List Token) :=
  tokenizeLines text (splitNl text).enum

/-! ## Symbol table (`symbolTable.ts`) -/

/-- The `SymbolType` enum. The source's member `Type` is rendered `TypeDecl`
(`Type` is reserved in Lean). -/
inductive SymbolType where
  | Token
  | TypeDecl
  | Rule
  | Nonterminal
  | ParameterizedRule
  | Union
  | Start
deriving DecidableEq, Repr

/-- `SymbolDefinition` interface: full range and name range. -/
structure SymbolDefinition where
  range : DocRange
  nameRange : DocRange
deriving DecidableEq, Repr

/-- `SymbolReference` interface. -/
structure SymbolReference where
  range : DocRange
deriving DecidableEq, Repr

/-- `ParameterizedCall` interface. -/
structure ParameterizedCall where
  range : DocRange
  arguments : List Str
deriving DecidableEq, Repr

/-- The `Symbol` interface. The optional `parameterizedCalls` array is always
initialised to `[]` at every creation site of the source, so it is embedded
as a plain list; the optional `isParameterized` flag becomes a `Bool`
(absent = `false`, which is how the source's truthiness tests read it). -/
structure Symbol where
  name : Str
  type : SymbolType
  definition : Option SymbolDefinition
  references : List SymbolReference
  parameterizedCalls : List ParameterizedCall
  parameters : Option (List Str)
  typeTag : Option Str
  isParameterized : Bool
deriving DecidableEq, Repr

/-- In-place update of the first (in a JS `Map`, the only) entry with the
given name — the functional image of mutating the object returned by
`Map.get`. -/
def setNamed : List Symbol → Str → (Symbol → Symbol) → List Symbol
  | [], _, _ => []
  | s :: rest, name, f =>
    if s.name = name then f s :: rest else s :: setNamed rest name f

/-- The `SymbolTable` class: two insertion-ordered stores keyed by the
symbols' `name` field (JS `Map`s iterate in insertion order), plus the start
symbol. -/
structure SymbolTable where
  symbols : List Symbol
  parameterizedRules : List Symbol
  startSymbol : Option Str
deriving DecidableEq, Repr

def SymbolTable.empty : SymbolTable := ⟨[], [], none⟩

/-- `Map.get` on the plain-symbol store. -/
def SymbolTable.plainLookup (t : SymbolTable) (name : Str) : Option Symbol :=
  t.symbols.find? (fun s => s.name = name)

/-- `Map.get` on the parameterized-rule store. -/
def SymbolTable.paramLookup (t : SymbolTable) (name : Str) : Option Symbol :=
  t.parameterizedRules.find? (fun s => s.name = name)

/-- `SymbolTable.addSymbol`: create the symbol if absent; if present without
a prior definition and a definition is supplied, attach it (updating the
type); otherwise leave the entry untouched.  Returns the updated table with
the symbol the source returns by reference. -/
def SymbolTable.addSymbol (t : SymbolTable) (name : Str) (ty : SymbolType)
    (definition : Option SymbolDefinition) : SymbolTable × Symbol :=
  match t.plainLookup name with
  | none =>
    let s : Symbol := ⟨name, ty, definition, [], [], none, none, false⟩
    ({ t with symbols := t.symbols ++ [s] }, s)
  | some s =>
    if definition.isSome && s.definition = none then
      let s' := { s with definition := definition, type := ty }
      ({ t with symbols := setNamed t.symbols name (fun _ => s') }, s')
    else (t, s)

/-- `SymbolTable.addParameterizedRuleDefinition`: create the entry if absent;
if present, overwrite its definition, type, parameters and flag. -/
def SymbolTable.addParameterizedRuleDefinition (t : SymbolTable) (baseName : Str)
    (definition : SymbolDefinition) (parameters : List Str) :
    SymbolTable × Symbol :=
  match t.paramLookup baseName with
  | none =>
    let s : Symbol :=
      ⟨baseName, .ParameterizedRule, some definition, [], [],
        some parameters, none, true⟩
    ({ t with parameterizedRules := t.parameterizedRules ++ [s] }, s)
  | some s =>
    let s' := { s with definition := some definition,
                       type := SymbolType.ParameterizedRule,
                       parameters := some parameters,
                       isParameterized := true }
    ({ t with parameterizedRules := setNamed t.parameterizedRules baseName (fun _ => s') },
      s')

/-- `SymbolTable.addReference`: append to an existing symbol's reference
list, or create a definition-less `Nonterminal` (forward reference). -/
def SymbolTable.addReference (t : SymbolTable) (name : Str)
    (reference : SymbolReference) : SymbolTable :=
  match t.plainLookup name with
  | some _ =>
    let push := fun s => { s with references := s.references ++ [reference] }
    { t with symbols := setNamed t.symbols name push }
  | none =>
    { t with symbols := t.symbols ++
        [⟨name, .Nonterminal, none, [reference], [], none, none, false⟩] }

/-- `SymbolTable.addParameterizedCall`: append the call to the entry in the
parameterized store, creating a definition-less placeholder if needed (the
source's guard re-initialising a missing `parameterizedCalls` array is
vacuous here, the list always exists). -/
def SymbolTable.addParameterizedCall (t : SymbolTable) (baseName : Str)
    (call : ParameterizedCall) : SymbolTable :=
  match t.paramLookup baseName with
  | some _ =>
    let push := fun s => { s with parameterizedCalls := s.parameterizedCalls ++ [call] }
    { t with parameterizedRules := setNamed t.parameterizedRules baseName push }
  | none =>
    { t with parameterizedRules := t.parameterizedRules ++
        [⟨baseName, .ParameterizedRule, none, [], [call], none, none, true⟩] }

/-- Functional image of `symbol.typeTag = tag` performed by the parser on the
object `addSymbol` returned (an entry of the plain store). -/
def SymbolTable.setPlainTypeTag (t : SymbolTable) (name : Str) (tag : Str) :
    SymbolTable :=
  { t with symbols := setNamed t.symbols name (fun s => { s with typeTag := some tag }) }

/-- Functional image of `symbol.typeTag = tag` on an entry of the
parameterized store. -/
def SymbolTable.setParamTypeTag (t : SymbolTable) (name : Str) (tag : Str) :
    SymbolTable :=
  let put := fun s => { s with typeTag := some tag }
  { t with parameterizedRules := setNamed t.parameterizedRules name put }

/-- `SymbolTable.getAllSymbols`: parameterized entries first, then plain
entries, each in insertion order. -/
def SymbolTable.getAllSymbols (t : SymbolTable) : List Symbol :=
  t.parameterizedRules ++ t.symbols

end Lrama

namespace Lrama

/-! ## Section-aware parser (`LramaParser`) -/

/-- `LramaParser.isEndOfDeclaration`. -/
def isEndOfDeclaration (tk : Token) : Bool :=
  tk.type = TokenType.DIRECTIVE || tk.type = TokenType.SEPARATOR || tk.type = TokenType.PROLOGUE_START

/-- `LramaParser.createRange`: a token's half-open character range. -/
def createRange (tk : Token) : DocRange :=
  ⟨⟨tk.line, tk.column⟩, ⟨tk.line, tk.column + tk.length⟩⟩

/-- SPECIAL token values are single characters, so the source's substring
test `"?*+".includes(value)` is this membership. -/
def isSuffixOp (v : Str) : Bool :=
  v = "?".data || v = "*".data || v = "+".data

/-- Uniform fuel bound used at every sub-parser call site: one full token
list plus one final iteration always suffices, because every loop iteration
consumes at least one token (proved below). -/
def fullFuel (tokens : List Token) : Nat := tokens.length + 1

/-- Loop of `skipToEndOfLine` (`curLine` is the line of `tokens[idx-1]`,
`none` when that token does not exist, like the source's `undefined`). -/
def skipToEndOfLineLoop (tokens : List Token) (curLine : Option Nat) :
    Nat → Nat → Option Nat
  | 0, _ => none
  | fuel + 1, idx =>
    match tokens.get? idx with
    | some tk =>
      if some tk.line = curLine then skipToEndOfLineLoop tokens curLine fuel (idx + 1)
      else some idx
    | none => some idx

/-- `LramaParser.skipToEndOfLine`. -/
def skipToEndOfLine (tokens : List Token) (fuel idx : Nat) : Option Nat :=
  skipToEndOfLineLoop tokens
    (if idx = 0 then none else (tokens.get? (idx - 1)).map (fun tk => tk.line))
    fuel idx

/-- Loop of `LramaParser.skipPrologue` (after the initial `%{` skip). -/
def skipPrologueLoop (tokens : List Token) : Nat → Nat → Option Nat
  | 0, _ => none
  | fuel + 1, idx =>
    match tokens.get? idx with
    | none => some idx
    | some tk =>
      if tk.type = TokenType.PROLOGUE_END then some (idx + 1)
      else skipPrologueLoop tokens fuel (idx + 1)

/-- `LramaParser.skipPrologue`. -/
def skipPrologue (tokens : List Token) (fuel idx : Nat) : Option Nat :=
  skipPrologueLoop tokens fuel (idx + 1)

/-- Brace-depth loop of `LramaParser.skipCodeBlock` (the depth is an `Int`,
as in the source it may go negative without ending the loop). -/
def skipCodeBlockLoop (tokens : List Token) : Nat → Int → Nat → Option Nat
  | 0, _, _ => none
  | fuel + 1, depth, idx =>
    match tokens.get? idx with
    | none => some idx
    | some tk =>
      if tk.type = TokenType.SPECIAL ∧ tk.value = "\x7b".data then
        skipCodeBlockLoop tokens fuel (depth + 1) (idx + 1)
      else if tk.type = TokenType.SPECIAL ∧ tk.value = "\x7d".data then
        if depth - 1 = 0 then some (idx + 1)
        else skipCodeBlockLoop tokens fuel (depth - 1) (idx + 1)
      else skipCodeBlockLoop tokens fuel depth (idx + 1)

/-- `LramaParser.skipCodeBlock`. -/
def skipCodeBlock (tokens : List Token) (fuel idx : Nat) : Option Nat :=
  skipCodeBlockLoop tokens fuel 0 idx

/-- Loop of `LramaParser.skipNamedReference` (after the initial `[` skip);
identifiers inside the brackets are local aliases and produce nothing. -/
def skipNamedReferenceLoop (tokens : List Token) : Nat → Nat → Option Nat
  | 0, _ => none
  | fuel + 1, idx =>
    match tokens.get? idx with
    | none => some idx
    | some tk =>
      if tk.type = TokenType.SPECIAL ∧ tk.value = "]".data then some (idx + 1)
      else skipNamedReferenceLoop tokens fuel (idx + 1)

/-- `LramaParser.skipNamedReference`. -/
def skipNamedReference (tokens : List Token) (fuel idx : Nat) : Option Nat :=
  skipNamedReferenceLoop tokens fuel (idx + 1)

/-- The "skip to opening brace" loop shared by `parseUnionDeclaration` and
`parseCodeBlockDeclaration` (stops AT the brace without consuming it). -/
def findOpenBraceLoop (tokens : List Token) : Nat → Nat → Option Nat
  | 0, _ => none
  | fuel + 1, idx =>
    match tokens.get? idx with
    | none => some idx
    | some tk =>
      if tk.type = TokenType.SPECIAL ∧ tk.value = "\x7b".data then some idx
      else findOpenBraceLoop tokens fuel (idx + 1)

/-- Identifier loop of `LramaParser.parseTokenDeclaration`.  The type tag is
applied through the symbol reference `addSymbol` returns, guarded by the
source's JS truthiness test (`undefined` and the empty string are falsy). -/
def parseTokenDeclarationLoop (tokens : List Token) (typeTag : Option Str) :
    Nat → Nat → SymbolTable → Option (Nat × SymbolTable)
  | 0, _, _ => none
  | fuel + 1, idx, t =>
    match tokens.get? idx with
    | none => some (idx, t)
    | some tk =>
      if tk.type = TokenType.IDENTIFIER then
        let r := createRange tk
        let t1 := (t.addSymbol tk.value .Token (some ⟨r, r⟩)).1
        let t2 := match typeTag with
          | some tg => if tg.isEmpty then t1 else t1.setPlainTypeTag tk.value tg
          | none => t1
        parseTokenDeclarationLoop tokens typeTag fuel (idx + 1) t2
      else if tk.type = TokenType.CHARACTER then
        parseTokenDeclarationLoop tokens typeTag fuel (idx + 1) t
      else if tk.type = TokenType.STRING then
        parseTokenDeclarationLoop tokens typeTag fuel (idx + 1) t
      else if isEndOfDeclaration tk then some (idx, t)
      else parseTokenDeclarationLoop tokens typeTag fuel (idx + 1) t

/-- `LramaParser.parseTokenDeclaration`. -/
def parseTokenDeclaration (tokens : List Token) (idx : Nat) (t : SymbolTable) :
    Option (Nat × SymbolTable) :=
  let idx1 := idx + 1
  let tagAndIdx : Option Str × Nat :=
    match tokens.get? idx1 with
    | some tk => if tk.type = TokenType.TYPE_TAG then (some tk.value, idx1 + 1) else (none, idx1)
    | none => (none, idx1)
  parseTokenDeclarationLoop tokens tagAndIdx.1 (fullFuel tokens) tagAndIdx.2 t

/-- Identifier loop of `LramaParser.parseTypeDeclaration`. -/
def parseTypeDeclarationLoop (tokens : List Token) (typeTag : Option Str) :
    Nat → Nat → SymbolTable → Option (Nat × SymbolTable)
  | 0, _, _ => none
  | fuel + 1, idx, t =>
    match tokens.get? idx with
    | none => some (idx, t)
    | some tk =>
      if tk.type = TokenType.IDENTIFIER then
        let r := createRange tk
        let t1 := (t.addSymbol tk.value .TypeDecl (some ⟨r, r⟩)).1
        let t2 := match typeTag with
          | some tg => if tg.isEmpty then t1 else t1.setPlainTypeTag tk.value tg
          | none => t1
        parseTypeDeclarationLoop tokens typeTag fuel (idx + 1) t2
      else if isEndOfDeclaration tk then some (idx, t)
      else parseTypeDeclarationLoop tokens typeTag fuel (idx + 1) t

/-- `LramaParser.parseTypeDeclaration`. -/
def parseTypeDeclaration (tokens : List Token) (idx : Nat) (t : SymbolTable) :
    Option (Nat × SymbolTable) :=
  let idx1 := idx + 1
  let tagAndIdx : Option Str × Nat :=
    match tokens.get? idx1 with
    | some tk => if tk.type = TokenType.TYPE_TAG then (some tk.value, idx1 + 1) else (none, idx1)
    | none => (none, idx1)
  parseTypeDeclarationLoop tokens tagAndIdx.1 (fullFuel tokens) tagAndIdx.2 t

/-- Identifier loop of `LramaParser.parseNtermDeclaration`. -/
def parseNtermDeclarationLoop (tokens : List Token) (typeTag : Option Str) :
    Nat → Nat → SymbolTable → Option (Nat × SymbolTable)
  | 0, _, _ => none
  | fuel + 1, idx, t =>
    match tokens.get? idx with
    | none => some (idx, t)
    | some tk =>
      if tk.type = TokenType.IDENTIFIER then
        let r := createRange tk
        let t1 := (t.addSymbol tk.value .Nonterminal (some ⟨r, r⟩)).1
        let t2 := match typeTag with
          | some tg => if tg.isEmpty then t1 else t1.setPlainTypeTag tk.value tg
          | none => t1
        parseNtermDeclarationLoop tokens typeTag fuel (idx + 1) t2
      else if isEndOfDeclaration tk then some (idx, t)
      else parseNtermDeclarationLoop tokens typeTag fuel (idx + 1) t

/-- `LramaParser.parseNtermDeclaration`. -/
def parseNtermDeclaration (tokens : List Token) (idx : Nat) (t : SymbolTable) :
    Option (Nat × SymbolTable) :=
  let idx1 := idx + 1
  let tagAndIdx : Option Str × Nat :=
    match tokens.get? idx1 with
    | some tk => if tk.type = TokenType.TYPE_TAG then (some tk.value, idx1 + 1) else (none, idx1)
    | none => (none, idx1)
  parseNtermDeclarationLoop tokens tagAndIdx.1 (fullFuel tokens) tagAndIdx.2 t

/-- `LramaParser.parseStartDeclaration`. -/
def parseStartDeclaration (tokens : List Token) (idx : Nat) (t : SymbolTable) :
    Option (Nat × SymbolTable) :=
  let idx1 := idx + 1
  match tokens.get? idx1 with
  | some tk =>
    if tk.type = TokenType.IDENTIFIER then
      let r := createRange tk
      some (idx1 + 1, (t.addSymbol tk.value .Start (some ⟨r, r⟩)).1)
    else some (idx1, t)
  | none => some (idx1, t)

/-- `LramaParser.parseUnionDeclaration`: skip to the opening brace, then a
brace-depth loop literally identical to `skipCodeBlockLoop`. -/
def parseUnionDeclaration (tokens : List Token) (idx : Nat) (t : SymbolTable) :
    Option (Nat × SymbolTable) := do
  let idx1 ← findOpenBraceLoop tokens (fullFuel tokens) (idx + 1)
  let idx2 ← skipCodeBlockLoop tokens (fullFuel tokens) 0 idx1
  some (idx2, t)

/-- Identifier/character loop of `LramaParser.parsePrecedenceDeclaration`:
every listed identifier or character literal becomes a `Token` definition. -/
def parsePrecedenceDeclarationLoop (tokens : List Token) :
    Nat → Nat → SymbolTable → Option (Nat × SymbolTable)
  | 0, _, _ => none
  | fuel + 1, idx, t =>
    match tokens.get? idx with
    | none => some (idx, t)
    | some tk =>
      if tk.type = TokenType.IDENTIFIER then
        let r := createRange tk
        parsePrecedenceDeclarationLoop tokens fuel (idx + 1)
          (t.addSymbol tk.value .Token (some ⟨r, r⟩)).1
      else if tk.type = TokenType.CHARACTER then
        let r := createRange tk
        parsePrecedenceDeclarationLoop tokens fuel (idx + 1)
          (t.addSymbol tk.value .Token (some ⟨r, r⟩)).1
      else if isEndOfDeclaration tk then some (idx, t)
      else parsePrecedenceDeclarationLoop tokens fuel (idx + 1) t

/-- `LramaParser.parsePrecedenceDeclaration`. -/
def parsePrecedenceDeclaration (tokens : List Token) (idx : Nat)
    (t : SymbolTable) : Option (Nat × SymbolTable) :=
  parsePrecedenceDeclarationLoop tokens (fullFuel tokens) (idx + 1) t

/-- `LramaParser.parseCodeBlockDeclaration` (`%destructor` / `%printer`). -/
def parseCodeBlockDeclaration (tokens : List Token) (idx : Nat)
    (t : SymbolTable) : Option (Nat × SymbolTable) := do
  let idx1 ← findOpenBraceLoop tokens (fullFuel tokens) (idx + 1)
  let idx2 ← skipCodeBlock tokens (fullFuel tokens) idx1
  some (idx2, t)

/-- Loop of `LramaParser.parseArgumentList`: collect top-level identifier and
character arguments, registering every identifier argument as an ordinary
reference. -/
def parseArgumentListLoop (tokens : List Token) :
    Nat → Int → List Str → Nat → SymbolTable → Option (Nat × List Str × SymbolTable)
  | 0, _, _, _, _ => none
  | fuel + 1, parenDepth, args, idx, t =>
    if parenDepth > 0 then
      match tokens.get? idx with
      | none => some (idx, args, t)
      | some tk =>
        if tk.type = TokenType.SPECIAL ∧ tk.value = "(".data then
          parseArgumentListLoop tokens fuel (parenDepth + 1) args (idx + 1) t
        else if tk.type = TokenType.SPECIAL ∧ tk.value = ")".data then
          if parenDepth - 1 = 0 then some (idx + 1, args, t)
          else parseArgumentListLoop tokens fuel (parenDepth - 1) args (idx + 1) t
        else if tk.type = TokenType.SPECIAL ∧ tk.value = ",".data ∧ parenDepth = 1 then
          parseArgumentListLoop tokens fuel parenDepth args (idx + 1) t
        else if tk.type = TokenType.IDENTIFIER ∧ parenDepth = 1 then
          let r := createRange tk
          parseArgumentListLoop tokens fuel parenDepth (args ++ [tk.value]) (idx + 1)
            (t.addReference tk.value ⟨r⟩)
        else if tk.type = TokenType.CHARACTER ∧ parenDepth = 1 then
          parseArgumentListLoop tokens fuel parenDepth (args ++ [tk.value]) (idx + 1) t
        else parseArgumentListLoop tokens fuel parenDepth args (idx + 1) t
    else some (idx, args, t)

/-- `LramaParser.parseArgumentList` (entered just after the opening paren,
`parenDepth = 1`). -/
def parseArgumentList (tokens : List Token) (idx : Nat) (t : SymbolTable) :
    Option (Nat × List Str × SymbolTable) :=
  parseArgumentListLoop tokens (fullFuel tokens) 1 [] idx t

/-- Loop of `LramaParser.parseArgumentListWithContext`: same as
`parseArgumentListLoop` except that an identifier argument that is a known
formal parameter is collected but NOT registered as a reference. -/
def parseArgumentListWithContextLoop (tokens : List Token)
    (knownParameters : List Str) :
    Nat → Int → List Str → Nat → SymbolTable → Option (Nat × List Str × SymbolTable)
  | 0, _, _, _, _ => none
  | fuel + 1, parenDepth, args, idx, t =>
    if parenDepth > 0 then
      match tokens.get? idx with
      | none => some (idx, args, t)
      | some tk =>
        if tk.type = TokenType.SPECIAL ∧ tk.value = "(".data then
          parseArgumentListWithContextLoop tokens knownParameters fuel
            (parenDepth + 1) args (idx + 1) t
        else if tk.type = TokenType.SPECIAL ∧ tk.value = ")".data then
          if parenDepth - 1 = 0 then some (idx + 1, args, t)
          else parseArgumentListWithContextLoop tokens knownParameters fuel
            (parenDepth - 1) args (idx + 1) t
        else if tk.type = TokenType.SPECIAL ∧ tk.value = ",".data ∧ parenDepth = 1 then
          parseArgumentListWithContextLoop tokens knownParameters fuel
            parenDepth args (idx + 1) t
        else if tk.type = TokenType.IDENTIFIER ∧ parenDepth = 1 then
          let t' := if knownParameters.contains tk.value then t
            else t.addReference tk.value ⟨createRange tk⟩
          parseArgumentListWithContextLoop tokens knownParameters fuel
            parenDepth (args ++ [tk.value]) (idx + 1) t'
        else if tk.type = TokenType.CHARACTER ∧ parenDepth = 1 then
          parseArgumentListWithContextLoop tokens knownParameters fuel
            parenDepth (args ++ [tk.value]) (idx + 1) t
        else parseArgumentListWithContextLoop tokens knownParameters fuel
          parenDepth args (idx + 1) t
    else some (idx, args, t)

/-- `LramaParser.parseArgumentListWithContext`. -/
def parseArgumentListWithContext (tokens : List Token)
    (knownParameters : List Str) (idx : Nat) (t : SymbolTable) :
    Option (Nat × List Str × SymbolTable) :=
  parseArgumentListWithContextLoop tokens knownParameters (fullFuel tokens) 1 [] idx t

/-- Truthiness of `tokens[i] && tokens[i].type === ty && tokens[i].value === v`. -/
def isTok (tk? : Option Token) (ty : TokenType) (v : Str) : Bool :=
  match tk? with
  | some tk => tk.type = ty && tk.value = v
  | none => false

/-- `LramaParser.parseRuleBody` (the `ruleName` argument of the source is
unused there and dropped here).  `fuel` bounds the loop; each branch mirrors
the source in order: `;` ends the rule, `|` separates alternatives, `{`
skips an action block plus an optional midrule type tag, `%prec` takes one
identifier/character reference, `%empty` and other directives are consumed,
an identifier followed by `(` is a parameterized call (arguments parsed by
`parseArgumentList`), any other identifier is an ordinary reference with
optional `[alias]` and suffix-operator skips, a character literal only gets
the suffix skip. -/
def parseRuleBody (tokens : List Token) :
    Nat → Nat → SymbolTable → Option (Nat × SymbolTable)
  | 0, _, _ => none
  | fuel + 1, idx, t =>
    match tokens.get? idx with
    | none => some (idx, t)
    | some tk =>
      if tk.type = TokenType.SPECIAL ∧ tk.value = ";".data then some (idx + 1, t)
      else if tk.type = TokenType.SPECIAL ∧ tk.value = "|".data then
        parseRuleBody tokens fuel (idx + 1) t
      else if tk.type = TokenType.SPECIAL ∧ tk.value = "\x7b".data then do
        let idx1 ← skipCodeBlock tokens (fullFuel tokens) idx
        let idx2 := match tokens.get? idx1 with
          | some tk2 => if tk2.type = TokenType.TYPE_TAG then idx1 + 1 else idx1
          | none => idx1
        parseRuleBody tokens fuel idx2 t
      else if tk.type = TokenType.DIRECTIVE then
        if tk.value = "%prec".data then
          let idx1 := idx + 1
          match tokens.get? idx1 with
          | some precTok =>
            if precTok.type = TokenType.IDENTIFIER ∨ precTok.type = TokenType.CHARACTER then
              parseRuleBody tokens fuel (idx1 + 1)
                (t.addReference precTok.value ⟨createRange precTok⟩)
            else parseRuleBody tokens fuel idx1 t
          | none => parseRuleBody tokens fuel idx1 t
        else if tk.value = "%empty".data then parseRuleBody tokens fuel (idx + 1) t
        else parseRuleBody tokens fuel (idx + 1) t
      else if tk.type = TokenType.IDENTIFIER then
        let nextIndex := idx + 1
        if isTok (tokens.get? nextIndex) TokenType.SPECIAL "(".data then do
          let callRange := createRange tk
          let (idx2, args, t2) ← parseArgumentList tokens (nextIndex + 1) t
          let t3 := t2.addParameterizedCall tk.value ⟨callRange, args⟩
          let idx3 ← (match tokens.get? idx2 with
            | some b =>
              if b.type = TokenType.SPECIAL ∧ b.value = "[".data then
                skipNamedReference tokens (fullFuel tokens) idx2
              else some idx2
            | none => some idx2)
          parseRuleBody tokens fuel idx3 t3
        else do
          let t2 := t.addReference tk.value ⟨createRange tk⟩
          let idx2 := idx + 1
          let idx3 ← (match tokens.get? idx2 with
            | some b =>
              if b.type = TokenType.SPECIAL ∧ b.value = "[".data then
                skipNamedReference tokens (fullFuel tokens) idx2
              else some idx2
            | none => some idx2)
          let idx4 := match tokens.get? idx3 with
            | some sfx =>
              if sfx.type = TokenType.SPECIAL ∧ isSuffixOp sfx.value then idx3 + 1 else idx3
            | none => idx3
          parseRuleBody tokens fuel idx4 t2
      else if tk.type = TokenType.CHARACTER then
        let idx2 := idx + 1
        let idx3 := match tokens.get? idx2 with
          | some sfx =>
            if sfx.type = TokenType.SPECIAL ∧ isSuffixOp sfx.value then idx2 + 1 else idx2
          | none => idx2
        parseRuleBody tokens fuel idx3 t
      else parseRuleBody tokens fuel (idx + 1) t

/-- `LramaParser.parseParameterizedRuleBody`: like `parseRuleBody` but with
the rule's formal parameters in scope.  A bare identifier equal to a
parameter is consumed without a reference; identifier arguments of nested
calls go through `parseArgumentListWithContext`; note that the `%prec`
branch registers its reference WITHOUT consulting the parameters. -/
def parseParameterizedRuleBody (tokens : List Token)
    (currentParameters : List Str) :
    Nat → Nat → SymbolTable → Option (Nat × SymbolTable)
  | 0, _, _ => none
  | fuel + 1, idx, t =>
    match tokens.get? idx with
    | none => some (idx, t)
    | some tk =>
      if tk.type = TokenType.SPECIAL ∧ tk.value = ";".data then some (idx + 1, t)
      else if tk.type = TokenType.SPECIAL ∧ tk.value = "|".data then
        parseParameterizedRuleBody tokens currentParameters fuel (idx + 1) t
      else if tk.type = TokenType.SPECIAL ∧ tk.value = "\x7b".data then do
        let idx1 ← skipCodeBlock tokens (fullFuel tokens) idx
        let idx2 := match tokens.get? idx1 with
          | some tk2 => if tk2.type = TokenType.TYPE_TAG then idx1 + 1 else idx1
          | none => idx1
        parseParameterizedRuleBody tokens currentParameters fuel idx2 t
      else if tk.type = TokenType.DIRECTIVE then
        if tk.value = "%prec".data then
          let idx1 := idx + 1
          match tokens.get? idx1 with
          | some precTok =>
            if precTok.type = TokenType.IDENTIFIER ∨ precTok.type = TokenType.CHARACTER then
              parseParameterizedRuleBody tokens currentParameters fuel (idx1 + 1)
                (t.addReference precTok.value ⟨createRange precTok⟩)
            else parseParameterizedRuleBody tokens currentParameters fuel idx1 t
          | none => parseParameterizedRuleBody tokens currentParameters fuel idx1 t
        else if tk.value = "%empty".data then
          parseParameterizedRuleBody tokens currentParameters fuel (idx + 1) t
        else parseParameterizedRuleBody tokens currentParameters fuel (idx + 1) t
      else if tk.type = TokenType.IDENTIFIER then
        let nextIndex := idx + 1
        if isTok (tokens.get? nextIndex) TokenType.SPECIAL "(".data then do
          let callRange := createRange tk
          let (idx2, args, t2) ←
            parseArgumentListWithContext tokens currentParameters (nextIndex + 1) t
          let t3 := t2.addParameterizedCall tk.value ⟨callRange, args⟩
          let idx3 ← (match tokens.get? idx2 with
            | some b =>
              if b.type = TokenType.SPECIAL ∧ b.value = "[".data then
                skipNamedReference tokens (fullFuel tokens) idx2
              else some idx2
            | none => some idx2)
          parseParameterizedRuleBody tokens currentParameters fuel idx3 t3
        else if currentParameters.contains tk.value then
          -- parameter occurrence: consumed, no reference recorded
          parseParameterizedRuleBody tokens currentParameters fuel (idx + 1) t
        else do
          let t2 := t.addReference tk.value ⟨createRange tk⟩
          let idx2 := idx + 1
          let idx3 ← (match tokens.get? idx2 with
            | some b =>
              if b.type = TokenType.SPECIAL ∧ b.value = "[".data then
                skipNamedReference tokens (fullFuel tokens) idx2
              else some idx2
            | none => some idx2)
          let idx4 := match tokens.get? idx3 with
            | some sfx =>
              if sfx.type = TokenType.SPECIAL ∧ isSuffixOp sfx.value then idx3 + 1 else idx3
            | none => idx3
          parseParameterizedRuleBody tokens currentParameters fuel idx4 t2
      else if tk.type = TokenType.CHARACTER then
        let idx2 := idx + 1
        let idx3 := match tokens.get? idx2 with
          | some sfx =>
            if sfx.type = TokenType.SPECIAL ∧ isSuffixOp sfx.value then idx2 + 1 else idx2
          | none => idx2
        parseParameterizedRuleBody tokens currentParameters fuel idx3 t
      else parseParameterizedRuleBody tokens currentParameters fuel (idx + 1) t

/-- Parameter-name loop of `parseParameterizedRuleDeclaration` (entered just
after the opening paren): collect identifiers until the closing paren. -/
def parseParamListLoop (tokens : List Token) :
    Nat → Nat → List Str → Option (List Str × Nat)
  | 0, _, _ => none
  | fuel + 1, idx, acc =>
    match tokens.get? idx with
    | none => some (acc, idx)
    | some tk =>
      if tk.type = TokenType.SPECIAL ∧ tk.value = ")".data then some (acc, idx + 1)
      else if tk.type = TokenType.IDENTIFIER then
        parseParamListLoop tokens fuel (idx + 1) (acc ++ [tk.value])
      else parseParamListLoop tokens fuel (idx + 1) acc

/-- Body stage of `parseParameterizedRuleDeclaration`: a `:` introduces the
rule body, parsed with the parameters in scope when the rule is
parameterized. -/
def parseParameterizedRuleDeclarationBody (tokens : List Token)
    (isParameterized : Bool) (params : List Str) (idx5 : Nat)
    (t2 : SymbolTable) : Option (Nat × SymbolTable) :=
  match tokens.get? idx5 with
  | some tk =>
    if tk.type = TokenType.SPECIAL ∧ tk.value = ":".data then
      if isParameterized then
        parseParameterizedRuleBody tokens params (fullFuel tokens) (idx5 + 1) t2
      else parseRuleBody tokens (fullFuel tokens) (idx5 + 1) t2
    else some (idx5, t2)
  | none => some (idx5, t2)

/-- Type-tag stage of `parseParameterizedRuleDeclaration`: an optional type
tag is assigned (unconditionally) through the symbol reference returned by
the store, then the body stage runs. -/
def parseParameterizedRuleDeclarationTag (tokens : List Token) (nameTok : Token)
    (isParameterized : Bool) (params : List Str) (idx4 : Nat)
    (t1 : SymbolTable) : Option (Nat × SymbolTable) :=
  match tokens.get? idx4 with
  | some tk =>
    if tk.type = TokenType.TYPE_TAG then
      parseParameterizedRuleDeclarationBody tokens isParameterized params
        (idx4 + 1)
        (if isParameterized then t1.setParamTypeTag nameTok.value tk.value
         else t1.setPlainTypeTag nameTok.value tk.value)
    else parseParameterizedRuleDeclarationBody tokens isParameterized params idx4 t1
  | none => parseParameterizedRuleDeclarationBody tokens isParameterized params idx4 t1

/-- `LramaParser.parseParameterizedRuleDeclaration` (`%rule`, optionally
`%inline`): with a parenthesized parameter list the entity goes to the
parameterized namespace, otherwise it is an ordinary `Rule`; then the
type-tag and body stages run. -/
def parseParameterizedRuleDeclaration (tokens : List Token) (idx : Nat)
    (t : SymbolTable) : Option (Nat × SymbolTable) :=
  let idx1 := idx + 1
  -- Check for %inline
  let idx2 := match tokens.get? idx1 with
    | some tk =>
      if tk.type = TokenType.DIRECTIVE ∧ tk.value = "%inline".data then idx1 + 1 else idx1
    | none => idx1
  -- Get rule name
  match tokens.get? idx2 with
  | some nameTok =>
    if nameTok.type = TokenType.IDENTIFIER then
      let nameRange := createRange nameTok
      let idx3 := idx2 + 1
      -- Check if this has parameters (making it a parameterized rule)
      match (match tokens.get? idx3 with
             | some tk =>
               if tk.type = TokenType.SPECIAL ∧ tk.value = "(".data then
                 (parseParamListLoop tokens (fullFuel tokens) (idx3 + 1) []).map
                   (fun pi : List Str × Nat => (true, pi.1, pi.2))
               else some (false, ([] : List Str), idx3)
             | none => some (false, ([] : List Str), idx3)) with
      | none => none
      | some (isParameterized, params, idx4) =>
        -- Create appropriate symbol based on whether it is parameterized
        let t1 := if isParameterized then
            (t.addParameterizedRuleDefinition nameTok.value
              ⟨nameRange, nameRange⟩ params).1
          else (t.addSymbol nameTok.value .Rule (some ⟨nameRange, nameRange⟩)).1
        parseParameterizedRuleDeclarationTag tokens nameTok isParameterized
          params idx4 t1
    else some (idx2, t)
  | none => some (idx2, t)

/-- Bracket scan of `parseRule` for a named reference after a rule name
(entered just after the opening bracket; compares token VALUES only, as the
source does). -/
def ruleNameBracketScan (tokens : List Token) : Nat → Nat → Option Nat
  | 0, _ => none
  | fuel + 1, idx =>
    match tokens.get? idx with
    | none => some idx
    | some tk =>
      if tk.value = "]".data then some (idx + 1)
      else ruleNameBracketScan tokens fuel (idx + 1)

/-- `LramaParser.parseRule`: `%rule` dispatches to the parameterized-rule
handler; an identifier (with an optional bracketed alias) followed by `:` is
a rule definition whose body is then parsed; anything else consumes one
token. -/
def parseRule (tokens : List Token) (idx : Nat) (t : SymbolTable) :
    Option (Nat × SymbolTable) :=
  match tokens.get? idx with
  | none => some (idx, t)
  | some tk =>
    if tk.type = TokenType.DIRECTIVE ∧ tk.value = "%rule".data then
      parseParameterizedRuleDeclaration tokens idx t
    else if tk.type = TokenType.IDENTIFIER then do
      let nextIndex ←
        (match tokens.get? (idx + 1) with
         | some b =>
           if b.type = TokenType.SPECIAL ∧ b.value = "[".data then
             ruleNameBracketScan tokens (fullFuel tokens) (idx + 2)
           else some (idx + 1)
         | none => some (idx + 1))
      match tokens.get? nextIndex with
      | some ct =>
        if ct.type = TokenType.SPECIAL ∧ ct.value = ":".data then
          let r := createRange tk
          let t1 := (t.addSymbol tk.value .Rule (some ⟨r, r⟩)).1
          parseRuleBody tokens (fullFuel tokens) (nextIndex + 1) t1
        else some (idx + 1, t)
      | none => some (idx + 1, t)
    else some (idx + 1, t)

/-- `LramaParser.parseDeclaration`: dispatch on the directive spelling
(unrecognised directives are skipped to the end of their line), skip a
prologue block, or consume one token. -/
def parseDeclaration (tokens : List Token) (idx : Nat) (t : SymbolTable) :
    Option (Nat × SymbolTable) :=
  match tokens.get? idx with
  | none => some (idx, t)
  | some tk =>
    if tk.type = TokenType.DIRECTIVE then
      if tk.value = "%token".data then parseTokenDeclaration tokens idx t
      else if tk.value = "%type".data then parseTypeDeclaration tokens idx t
      else if tk.value = "%nterm".data then parseNtermDeclaration tokens idx t
      else if tk.value = "%rule".data then
        parseParameterizedRuleDeclaration tokens idx t
      else if tk.value = "%start".data then parseStartDeclaration tokens idx t
      else if tk.value = "%union".data then parseUnionDeclaration tokens idx t
      else if tk.value = "%left".data ∨ tk.value = "%right".data ∨
          tk.value = "%nonassoc".data ∨ tk.value = "%precedence".data then
        parsePrecedenceDeclaration tokens idx t
      else if tk.value = "%destructor".data ∨ tk.value = "%printer".data then
        parseCodeBlockDeclaration tokens idx t
      else
        (skipToEndOfLine tokens (fullFuel tokens) (idx + 1)).map (fun i => (i, t))
    else if tk.type = TokenType.PROLOGUE_START then
      (skipPrologue tokens (fullFuel tokens) idx).map (fun i => (i, t))
    else some (idx + 1, t)

/-- The three grammar sections. -/
inductive GrammarSection where
  | declarations
  | rules
  | epilogue
deriving DecidableEq, Repr

/-- Section advance on a `%%` separator (strictly forward, then absorbing). -/
def nextSection : GrammarSection → GrammarSection
  | .declarations => .rules
  | .rules => .epilogue
  | .epilogue => .epilogue

/-- Loop of `LramaParser.parseGrammar`: the section state machine. -/
def parseGrammarLoop (tokens : List Token) :
    Nat → GrammarSection → Nat → SymbolTable → Option (Nat × SymbolTable)
  | 0, _, _, _ => none
  | fuel + 1, sec, idx, t =>
    match tokens.get? idx with
    | none => some (idx, t)
    | some tk =>
      if tk.type = TokenType.SEPARATOR ∧ tk.value = "%%".data then
        parseGrammarLoop tokens fuel (nextSection sec) (idx + 1) t
      else
        match sec with
        | .declarations => do
          let (idx', t') ← parseDeclaration tokens idx t
          parseGrammarLoop tokens fuel .declarations idx' t'
        | .rules => do
          let (idx', t') ← parseRule tokens idx t
          parseGrammarLoop tokens fuel .rules idx' t'
        | .epilogue => parseGrammarLoop tokens fuel .epilogue (idx + 1) t

/-- `LramaParser.parseGrammar`. -/
def parseGrammar (tokens : List Token) (t : SymbolTable) :
    Option (Nat × SymbolTable) :=
  parseGrammarLoop tokens (fullFuel tokens) .declarations 0 t

/-! ## Validator (`LramaParser.validateSymbols`) and `analyze` -/

/-- Severity of a published diagnostic. -/
inductive DiagnosticSeverity where
  | Warning
  | Information
deriving DecidableEq, Repr

/-- LSP diagnostic as pushed by `LramaParser.addDiagnostic`. -/
structure Diagnostic where
  severity : DiagnosticSeverity
  range : DocRange
  message : Str
  source : Str
deriving DecidableEq, Repr

/-- The undefined-symbol warning for `name` at range `r`. -/
def undefinedDiag (name : Str) (r : DocRange) : Diagnostic :=
  ⟨.Warning, r, "Symbol '".data ++ name ++ "' is not defined".data, "lrama".data⟩

/-- The unused-rule information diagnostic for `name` at range `r`. -/
def unusedDiag (name : Str) (r : DocRange) : Diagnostic :=
  ⟨.Information, r, "Rule '".data ++ name ++ "' is defined but never used".data,
    "lrama".data⟩

/-- `LramaParser.isCharacterLiteral`: starts and ends with a single quote. -/
def isCharacterLiteral (name : Str) : Bool :=
  name.head? = some '\'' && name.getLast? = some '\''

/-- `name.split("(")[0]`. -/
def baseNameOf (name : Str) : Str := name.takeWhile (fun ch => ch ≠ '(')

/-- The fixed built-in parameterized-function names. -/
def builtins : List Str :=
  ["option".data, "ioption".data, "list".data, "nonempty_list".data,
   "separated_list".data, "separated_nonempty_list".data, "preceded".data,
   "terminated".data, "delimited".data]

/-- `LramaParser.isBuiltinFunction`. -/
def isBuiltinFunction (name : Str) : Bool :=
  builtins.contains (baseNameOf name)

/-- One character of the class `[A-Z_]`. -/
def isUpperOrUnderscore (c : Char) : Bool :=
  (('A' : Char) ≤ c && c ≤ ('Z' : Char)) || c = '_'

/-- `LramaParser.isLikelyToken`: all-uppercase/underscore base name, or a
`t`/`k`/`TOKEN`-prefixed one. -/
def isLikelyToken (name : Str) : Bool :=
  let baseName := baseNameOf name
  (!baseName.isEmpty && baseName.all isUpperOrUnderscore) ||
  "t".data.isPrefixOf baseName || "k".data.isPrefixOf baseName ||
  "TOKEN".data.isPrefixOf baseName

/-- The fixed common template-parameter placeholder names. -/
def commonParams : List Str :=
  ["X".data, "Y".data, "Z".data, "A".data, "B".data, "C".data, "item".data,
   "element".data, "separator".data, "value".data, "arg".data, "args".data,
   "param".data, "params".data, "list".data, "elem".data, "expr".data,
   "stmt".data]

/-- `LramaParser.isCommonParameter`. -/
def isCommonParameter (name : Str) : Bool := commonParams.contains name

/-- Parameter collection pass of `validateSymbols` (the JS `Set` is modelled
as a list queried by membership; an empty parameter array is truthy). -/
def collectKnownParameters : List Symbol → List Str
  | [] => []
  | s :: rest =>
    (if s.type = .ParameterizedRule ∧ s.parameters.isSome then
      s.parameters.getD [] else []) ++ collectKnownParameters rest

/-- The unused-rule check at the end of the validator's per-symbol body. -/
def unusedCheck (s : Symbol) : List Diagnostic :=
  match s.definition with
  | some d =>
    if s.references = [] ∧ s.parameterizedCalls = [] ∧ s.type = .Rule ∧
        ¬ isCharacterLiteral s.name then
      [unusedDiag s.name d.nameRange]
    else []
  | none => []

/-- Diagnostics contributed by one symbol in `validateSymbols` (mirroring
the `continue` statements: a known-parameter or character-literal name in
the undefined branch skips the unused check as well). -/
def symbolDiags (knownParameters : List Str) (s : Symbol) : List Diagnostic :=
  if s.type = .ParameterizedRule ∧ s.isParameterized = false ∧
      s.definition = none then []
  else if s.references ≠ [] ∧ s.definition = none then
    if knownParameters.contains s.name then []
    else if isCharacterLiteral s.name then []
    else
      (if ¬ isBuiltinFunction s.name ∧ ¬ isLikelyToken s.name ∧
          ¬ isCommonParameter s.name then
        s.references.map (fun r => undefinedDiag s.name r.range)
      else []) ++ unusedCheck s
  else unusedCheck s

/-- `LramaParser.validateSymbols`: diagnostics over all entities, in table
iteration order. -/
def validateSymbols (t : SymbolTable) : List Diagnostic :=
  let symbols := t.getAllSymbols
  let knownParameters := collectKnownParameters symbols
  symbols.flatMap (symbolDiags knownParameters)

/-- `LramaParser.parse` up to the symbol table (tokenize then parseGrammar,
starting from a fresh table). -/
def parseText (text : Str) : Option SymbolTable := do
  let tokens ← tokenize text
  let (_, t) ← parseGrammar tokens SymbolTable.empty
  some t

/-- The core entry point `analyze(text)`: the populated symbol table together
with the validator's diagnostics. -/
def analyze (text : Str) : Option (SymbolTable × List Diagnostic) :=
  (parseText text).map (fun t => (t, validateSymbols t))

/-! ## Position lookup (`SymbolTable.getSymbolAtPosition`)

The position query receives the editor's `TextDocument`; here a document is
its text (`Str`) and `offsetAt` is the library's position-to-offset
conversion (line offsets computed at each `"\n"`, the only end-of-line the
analyzer's own splitting produces; positions are clamped to their line). -/

/-- Offsets at which each line starts: 0, and one past each newline. -/
def lineStartsAux : Str → Nat → List Nat
  | [], _ => []
  | c :: rest, ofs =>
    if c = '\n' then (ofs + 1) :: lineStartsAux rest (ofs + 1)
    else lineStartsAux rest (ofs + 1)

def lineStarts (text : Str) : List Nat := 0 :: lineStartsAux text 0

/-- `TextDocument.offsetAt`: clamped offset of a position. -/
def offsetAt (text : Str) (p : Pos) : Nat :=
  let ls := lineStarts text
  match ls.get? p.line with
  | none => text.length
  | some lineOffset =>
    let nextLineOffset := (ls.get? (p.line + 1)).getD text.length
    max (min (lineOffset + p.character) nextLineOffset) lineOffset

/-- One range-containment candidate of `getSymbolAtPosition`: the source's
`if (offset >= start && offset <= end) { if (priority > bestPriority) ... }`
(note the CLOSED interval: the end offset itself is inside). -/
def considerHit (document : Str) (offset : Nat) (r : DocRange)
    (priority : Int) (sym : Symbol) (best : Option Symbol × Int) :
    Option Symbol × Int :=
  if offsetAt document r.start ≤ offset ∧ offset ≤ offsetAt document r.endPos ∧
      best.2 < priority then
    (some sym, priority)
  else best

/-- Per-symbol scan of the parameterized store: definition name range at
priority 100, then each parameterized call range at priority 90. -/
def scanParamSymbol (document : Str) (offset : Nat)
    (best : Option Symbol × Int) (sym : Symbol) : Option Symbol × Int :=
  let b1 := match sym.definition with
    | some d => considerHit document offset d.nameRange 100 sym best
    | none => best
  sym.parameterizedCalls.foldl
    (fun b call => considerHit document offset call.range 90 sym b) b1

/-- Per-symbol scan of the plain store: definition name range at priority
50, then each reference range at priority 10. -/
def scanPlainSymbol (document : Str) (offset : Nat)
    (best : Option Symbol × Int) (sym : Symbol) : Option Symbol × Int :=
  let b1 := match sym.definition with
    | some d => considerHit document offset d.nameRange 50 sym best
    | none => best
  sym.references.foldl
    (fun b ref => considerHit document offset ref.range 10 sym b) b1

/-- `SymbolTable.getSymbolAtPosition`: the highest-priority entity whose
definition/call/reference range contains the position (parameterized
definitions and calls are checked first, ties keep the earlier hit). -/
def SymbolTable.getSymbolAtPosition (t : SymbolTable) (document : Str)
    (position : Pos) : Option Symbol :=
  let offset := offsetAt document position
  let b1 := t.parameterizedRules.foldl (scanParamSymbol document offset)
    (none, -1)
  let b2 := t.symbols.foldl (scanPlainSymbol document offset) b1
  b2.1

/-! ## The parser-side table invariant

Every table reachable by the parser satisfies: entries of the parameterized
store carry the `isParameterized` flag and have an empty ordinary-reference
list (references are only ever recorded in the plain store), and entries of
the plain store never have the `ParameterizedRule` kind (the parser only
creates plain entries with the kinds token / type / nonterminal / rule /
start). -/
def WfTable (t : SymbolTable) : Prop :=
  (∀ s ∈ t.parameterizedRules, s.isParameterized = true ∧ s.references = []) ∧
  (∀ s ∈ t.symbols, s.type ≠ SymbolType.ParameterizedRule)

/-- The validator's exclusion policy for an undefined name, as one
predicate: a declared formal parameter of any parameterized rule of the
table, a character-literal pseudo-name, a built-in parameterized-function
name, a token-shaped name, or a common placeholder name. -/
def excludedName (t : SymbolTable) (name : Str) : Bool :=
  (collectKnownParameters t.getAllSymbols).contains name ||
  isCharacterLiteral name || isBuiltinFunction name ||
  isLikelyToken name || isCommonParameter name

/-! ## Progress and termination of the scanner -/

theorem findSubFrom_ge {pat l : Str} {start e : Nat}
    (h : findSubFrom pat l start = some e) : start ≤ e := by
  have hp := List.find?_some h
  simp only [Bool.and_eq_true, decide_eq_true_eq] at hp
  exact hp.1

theorem findQuoteEnd_ge {line : Str} {col : Nat} {q : Char} {e : Nat}
    (h : findQuoteEnd line col q = some e) : col + 1 ≤ e := by
  have hp := List.find?_some h
  simp only [Bool.and_eq_true, decide_eq_true_eq] at hp
  exact hp.1.1

/-- Every step of the scanner that does not end the line strictly advances
the column. -/
theorem scanStep_advance {text line : Str} {lineNum col : Nat}
    {r : Option Token} {col' : Nat}
    (h : scanStep text line lineNum col = some (r, col')) : col < col' := by
  simp only [scanStep] at h
  repeat' split at h
  all_goals
    first
    | exact Option.noConfusion h
    | (simp only [Option.some.injEq, Prod.mk.injEq] at h
       obtain ⟨-, h2⟩ := h
       subst h2
       first
       | omega
       | (rename_i e he
          first
          | (have h9 := findSubFrom_ge he; omega)
          | (split at he
             · cases he; simp only [List.length_cons]; omega
             · exact Option.noConfusion he)
          | (split at he
             · have := findQuoteEnd_ge he; omega
             · exact Option.noConfusion he)
          | (split at he
             · have hp := List.find?_some he
               simp only [Bool.and_eq_true, decide_eq_true_eq] at hp
               omega
             · exact Option.noConfusion he)))

/-- Unfolding equation for one iteration of the scanner loop. -/
theorem tokenizeLine_succ (text line : Str) (lineNum fuel col : Nat) :
    tokenizeLine text line lineNum (fuel + 1) col =
    if col < line.length then
      match scanStep text line lineNum col with
      | none => some []
      | some (tok?, col') =>
        (tokenizeLine text line lineNum fuel col').map
          (fun ts => tok?.toList ++ ts)
    else some [] := rfl

/-- The per-line fuel `line.length + 1` suffices for the scanner's inner
loop: each iteration strictly advances the column or ends the line. -/
theorem tokenizeLine_suff (text line : Str) (lineNum : Nat) :
    ∀ fuel col, line.length - col < fuel →
    (tokenizeLine text line lineNum fuel col).isSome := by
  intro fuel
  induction fuel with
  | zero => intro col h; omega
  | succ fuel ih =>
    intro col h
    rw [tokenizeLine_succ]
    by_cases hc : col < line.length
    · simp only [hc, if_true]
      cases hs : scanStep text line lineNum col with
      | none => simp
      | some p =>
        obtain ⟨tok?, col'⟩ := p
        have hadv := scanStep_advance hs
        have hrec := ih col' (by omega)
        cases hres : tokenizeLine text line lineNum fuel col' with
        | none => rw [hres] at hrec; exact absurd hrec (by simp)
        | some ts => simp [hres]
    · simp [hc]

theorem tokenizeLines_isSome (text : Str) :
    ∀ ls : List (Nat × Str), (tokenizeLines text ls).isSome := by
  intro ls
  induction ls with
  | nil => simp [tokenizeLines]
  | cons p rest ih =>
    obtain ⟨lineNum, line⟩ := p
    rw [tokenizeLines]
    have h1 := tokenizeLine_suff text line lineNum (line.length + 1) 0 (by omega)
    cases ha : tokenizeLine text line lineNum (line.length + 1) 0 with
    | none => rw [ha] at h1; exact absurd h1 (by simp)
    | some a =>
      cases hb : tokenizeLines text rest with
      | none => rw [hb] at ih; exact absurd ih (by simp)
      | some b => simp [ha, hb]

/-- The scanner always terminates and produces a token list. -/
theorem tokenize_isSome (text : Str) : (tokenize text).isSome :=
  tokenizeLines_isSome text (splitNl text).enum

theorem setNamed_forall {p : Symbol → Prop} {l : List Symbol} {name : Str}
    {f : Symbol → Symbol} (hl : ∀ s ∈ l, p s) (hf : ∀ s ∈ l, p (f s)) :
    ∀ s' ∈ setNamed l name f, p s' := by
  induction l with
  | nil => intro s' hs'; simp [setNamed] at hs'
  | cons a l ih =>
    intro s' hs'
    rw [setNamed] at hs'
    split at hs'
    · rcases List.mem_cons.mp hs' with h | h
      · exact h ▸ hf a (List.mem_cons_self a l)
      · exact hl s' (List.mem_cons_of_mem a h)
    · rcases List.mem_cons.mp hs' with h | h
      · exact h ▸ hl a (List.mem_cons_self a l)
      · exact ih (fun s hs => hl s (List.mem_cons_of_mem a hs))
          (fun s hs => hf s (List.mem_cons_of_mem a hs)) s' h

theorem wf_empty : WfTable SymbolTable.empty := by
  constructor <;> simp [SymbolTable.empty]

theorem wf_addSymbol {t : SymbolTable} {name : Str} {ty : SymbolType}
    {defn : Option SymbolDefinition} (hty : ty ≠ SymbolType.ParameterizedRule)
    (h : WfTable t) : WfTable (t.addSymbol name ty defn).1 := by
  obtain ⟨hpar, hplain⟩ := h
  unfold SymbolTable.addSymbol
  split
  · refine ⟨hpar, ?_⟩
    intro s hs
    rcases List.mem_append.mp hs with hmem | hmem
    · exact hplain s hmem
    · simp only [List.mem_singleton] at hmem
      subst hmem; exact hty
  · split
    · refine ⟨hpar, ?_⟩
      exact setNamed_forall hplain (fun s hs => hty)
    · exact ⟨hpar, hplain⟩

theorem wf_addReference {t : SymbolTable} {name : Str} {ref : SymbolReference}
    (h : WfTable t) : WfTable (t.addReference name ref) := by
  obtain ⟨hpar, hplain⟩ := h
  unfold SymbolTable.addReference
  split
  · refine ⟨hpar, ?_⟩
    exact setNamed_forall hplain (fun s hs => hplain s hs)
  · refine ⟨hpar, ?_⟩
    intro s hs
    rcases List.mem_append.mp hs with hmem | hmem
    · exact hplain s hmem
    · simp only [List.mem_singleton] at hmem
      subst hmem; simp

theorem wf_addParameterizedRuleDefinition {t : SymbolTable} {name : Str}
    {d : SymbolDefinition} {ps : List Str} (h : WfTable t) :
    WfTable (t.addParameterizedRuleDefinition name d ps).1 := by
  obtain ⟨hpar, hplain⟩ := h
  unfold SymbolTable.addParameterizedRuleDefinition
  split
  · refine ⟨?_, hplain⟩
    intro s hs
    rcases List.mem_append.mp hs with hmem | hmem
    · exact hpar s hmem
    · simp only [List.mem_singleton] at hmem
      subst hmem; simp
  · rename_i s0 hfind
    have hs0 : s0 ∈ t.parameterizedRules := by
      unfold SymbolTable.paramLookup at hfind
      exact List.mem_of_find?_eq_some hfind
    refine ⟨?_, hplain⟩
    apply setNamed_forall hpar
    intro s1 hs1
    exact ⟨rfl, (hpar s0 hs0).2⟩

theorem wf_addParameterizedCall {t : SymbolTable} {name : Str}
    {call : ParameterizedCall} (h : WfTable t) :
    WfTable (t.addParameterizedCall name call) := by
  obtain ⟨hpar, hplain⟩ := h
  unfold SymbolTable.addParameterizedCall
  split
  · refine ⟨?_, hplain⟩
    apply setNamed_forall hpar
    intro s hs
    exact ⟨(hpar s hs).1, (hpar s hs).2⟩
  · refine ⟨?_, hplain⟩
    intro s hs
    rcases List.mem_append.mp hs with hmem | hmem
    · exact hpar s hmem
    · simp only [List.mem_singleton] at hmem
      subst hmem; simp

theorem wf_setPlainTypeTag {t : SymbolTable} {name tag : Str} (h : WfTable t) :
    WfTable (t.setPlainTypeTag name tag) := by
  obtain ⟨hpar, hplain⟩ := h
  unfold SymbolTable.setPlainTypeTag
  exact ⟨hpar, setNamed_forall hplain (fun s hs => hplain s hs)⟩

theorem wf_setParamTypeTag {t : SymbolTable} {name tag : Str} (h : WfTable t) :
    WfTable (t.setParamTypeTag name tag) := by
  obtain ⟨hpar, hplain⟩ := h
  unfold SymbolTable.setParamTypeTag
  exact ⟨setNamed_forall hpar (fun s hs => hpar s hs), hplain⟩

/-! ## Progress and fuel-sufficiency of the parser loops

Each lemma shows: with fuel exceeding the remaining token count the loop
completes (`some`), and the token cursor never moves backwards.  This is the
"every loop strictly advances its cursor on each iteration" argument of the
source, made explicit. -/

theorem get?_some_lt {tokens : List Token} {idx : Nat} {tk : Token}
    (h : tokens.get? idx = some tk) : idx < tokens.length :=
  (List.get?_eq_some.mp h).1

theorem skipToEndOfLineLoop_succ (tokens : List Token) (curLine : Option Nat)
    (fuel idx : Nat) :
    skipToEndOfLineLoop tokens curLine (fuel + 1) idx =
    match tokens.get? idx with
    | some tk =>
      if some tk.line = curLine then skipToEndOfLineLoop tokens curLine fuel (idx + 1)
      else some idx
    | none => some idx := rfl

theorem skipToEndOfLineLoop_spec (tokens : List Token) (curLine : Option Nat) :
    ∀ fuel idx, tokens.length - idx < fuel →
    ∃ idx', skipToEndOfLineLoop tokens curLine fuel idx = some idx' ∧ idx ≤ idx' := by
  intro fuel
  induction fuel with
  | zero => intro idx h; omega
  | succ fuel ih =>
    intro idx h
    rw [skipToEndOfLineLoop_succ]
    cases htk : tokens.get? idx with
    | none => exact ⟨idx, rfl, le_refl idx⟩
    | some tk =>
      have hlt := get?_some_lt htk
      dsimp only
      split_ifs with h1
      · obtain ⟨idx', heq, hle⟩ := ih (idx + 1) (by omega)
        exact ⟨idx', heq, by omega⟩
      · exact ⟨idx, rfl, le_refl idx⟩

theorem skipPrologueLoop_succ (tokens : List Token) (fuel idx : Nat) :
    skipPrologueLoop tokens (fuel + 1) idx =
    match tokens.get? idx with
    | none => some idx
    | some tk =>
      if tk.type = TokenType.PROLOGUE_END then some (idx + 1)
      else skipPrologueLoop tokens fuel (idx + 1) := rfl

theorem skipPrologueLoop_spec (tokens : List Token) :
    ∀ fuel idx, tokens.length - idx < fuel →
    ∃ idx', skipPrologueLoop tokens fuel idx = some idx' ∧ idx ≤ idx' := by
  intro fuel
  induction fuel with
  | zero => intro idx h; omega
  | succ fuel ih =>
    intro idx h
    rw [skipPrologueLoop_succ]
    cases htk : tokens.get? idx with
    | none => exact ⟨idx, rfl, le_refl idx⟩
    | some tk =>
      have hlt := get?_some_lt htk
      dsimp only
      split_ifs with h1
      · exact ⟨idx + 1, rfl, by omega⟩
      · obtain ⟨idx', heq, hle⟩ := ih (idx + 1) (by omega)
        exact ⟨idx', heq, by omega⟩

theorem skipCodeBlockLoop_succ (tokens : List Token) (fuel : Nat) (depth : Int)
    (idx : Nat) :
    skipCodeBlockLoop tokens (fuel + 1) depth idx =
    match tokens.get? idx with
    | none => some idx
    | some tk =>
      if tk.type = TokenType.SPECIAL ∧ tk.value = "\x7b".data then
        skipCodeBlockLoop tokens fuel (depth + 1) (idx + 1)
      else if tk.type = TokenType.SPECIAL ∧ tk.value = "\x7d".data then
        if depth - 1 = 0 then some (idx + 1)
        else skipCodeBlockLoop tokens fuel (depth - 1) (idx + 1)
      else skipCodeBlockLoop tokens fuel depth (idx + 1) := rfl

theorem skipCodeBlockLoop_spec (tokens : List Token) :
    ∀ fuel (depth : Int) idx, tokens.length - idx < fuel →
    ∃ idx', skipCodeBlockLoop tokens fuel depth idx = some idx' ∧ idx ≤ idx' ∧
      (idx < tokens.length → idx + 1 ≤ idx') := by
  intro fuel
  induction fuel with
  | zero => intro depth idx h; omega
  | succ fuel ih =>
    intro depth idx h
    rw [skipCodeBlockLoop_succ]
    cases htk : tokens.get? idx with
    | none =>
      refine ⟨idx, rfl, le_refl idx, fun hlt => ?_⟩
      have : tokens.get? idx ≠ none := by
        simp [List.get?_eq_none, not_le, hlt]
      exact absurd htk this
    | some tk =>
      have hlt := get?_some_lt htk
      dsimp only
      split_ifs with h1 h2 h3
      · obtain ⟨idx', heq, hle, _⟩ := ih (depth + 1) (idx + 1) (by omega)
        exact ⟨idx', heq, by omega, fun _ => by omega⟩
      · exact ⟨idx + 1, rfl, by omega, fun _ => by omega⟩
      · obtain ⟨idx', heq, hle, _⟩ := ih (depth - 1) (idx + 1) (by omega)
        exact ⟨idx', heq, by omega, fun _ => by omega⟩
      · obtain ⟨idx', heq, hle, _⟩ := ih depth (idx + 1) (by omega)
        exact ⟨idx', heq, by omega, fun _ => by omega⟩

theorem skipNamedReferenceLoop_succ (tokens : List Token) (fuel idx : Nat) :
    skipNamedReferenceLoop tokens (fuel + 1) idx =
    match tokens.get? idx with
    | none => some idx
    | some tk =>
      if tk.type = TokenType.SPECIAL ∧ tk.value = "]".data then some (idx + 1)
      else skipNamedReferenceLoop tokens fuel (idx + 1) := rfl

theorem skipNamedReferenceLoop_spec (tokens : List Token) :
    ∀ fuel idx, tokens.length - idx < fuel →
    ∃ idx', skipNamedReferenceLoop tokens fuel idx = some idx' ∧ idx ≤ idx' := by
  intro fuel
  induction fuel with
  | zero => intro idx h; omega
  | succ fuel ih =>
    intro idx h
    rw [skipNamedReferenceLoop_succ]
    cases htk : tokens.get? idx with
    | none => exact ⟨idx, rfl, le_refl idx⟩
    | some tk =>
      have hlt := get?_some_lt htk
      dsimp only
      split_ifs with h1
      · exact ⟨idx + 1, rfl, by omega⟩
      · obtain ⟨idx', heq, hle⟩ := ih (idx + 1) (by omega)
        exact ⟨idx', heq, by omega⟩

theorem findOpenBraceLoop_succ (tokens : List Token) (fuel idx : Nat) :
    findOpenBraceLoop tokens (fuel + 1) idx =
    match tokens.get? idx with
    | none => some idx
    | some tk =>
      if tk.type = TokenType.SPECIAL ∧ tk.value = "\x7b".data then some idx
      else findOpenBraceLoop tokens fuel (idx + 1) := rfl

theorem findOpenBraceLoop_spec (tokens : List Token) :
    ∀ fuel idx, tokens.length - idx < fuel →
    ∃ idx', findOpenBraceLoop tokens fuel idx = some idx' ∧ idx ≤ idx' := by
  intro fuel
  induction fuel with
  | zero => intro idx h; omega
  | succ fuel ih =>
    intro idx h
    rw [findOpenBraceLoop_succ]
    cases htk : tokens.get? idx with
    | none => exact ⟨idx, rfl, le_refl idx⟩
    | some tk =>
      have hlt := get?_some_lt htk
      dsimp only
      split_ifs with h1
      · exact ⟨idx, rfl, le_refl idx⟩
      · obtain ⟨idx', heq, hle⟩ := ih (idx + 1) (by omega)
        exact ⟨idx', heq, by omega⟩

theorem ruleNameBracketScan_succ (tokens : List Token) (fuel idx : Nat) :
    ruleNameBracketScan tokens (fuel + 1) idx =
    match tokens.get? idx with
    | none => some idx
    | some tk =>
      if tk.value = "]".data then some (idx + 1)
      else ruleNameBracketScan tokens fuel (idx + 1) := rfl

theorem ruleNameBracketScan_spec (tokens : List Token) :
    ∀ fuel idx, tokens.length - idx < fuel →
    ∃ idx', ruleNameBracketScan tokens fuel idx = some idx' ∧ idx ≤ idx' := by
  intro fuel
  induction fuel with
  | zero => intro idx h; omega
  | succ fuel ih =>
    intro idx h
    rw [ruleNameBracketScan_succ]
    cases htk : tokens.get? idx with
    | none => exact ⟨idx, rfl, le_refl idx⟩
    | some tk =>
      have hlt := get?_some_lt htk
      dsimp only
      split_ifs with h1
      · exact ⟨idx + 1, rfl, by omega⟩
      · obtain ⟨idx', heq, hle⟩ := ih (idx + 1) (by omega)
        exact ⟨idx', heq, by omega⟩

theorem skipCodeBlock_spec (tokens : List Token) {fuel idx : Nat}
    (h : tokens.length - idx < fuel) :
    ∃ idx', skipCodeBlock tokens fuel idx = some idx' ∧ idx ≤ idx' ∧
      (idx < tokens.length → idx + 1 ≤ idx') :=
  skipCodeBlockLoop_spec tokens fuel 0 idx h

theorem skipNamedReference_spec (tokens : List Token) {fuel idx : Nat}
    (h : tokens.length - idx < fuel) :
    ∃ idx', skipNamedReference tokens fuel idx = some idx' ∧ idx + 1 ≤ idx' := by
  obtain ⟨idx', heq, hle⟩ :=
    skipNamedReferenceLoop_spec tokens fuel (idx + 1) (by omega)
  exact ⟨idx', heq, hle⟩

theorem skipPrologue_spec (tokens : List Token) {fuel idx : Nat}
    (h : tokens.length - idx < fuel) :
    ∃ idx', skipPrologue tokens fuel idx = some idx' ∧ idx + 1 ≤ idx' := by
  obtain ⟨idx', heq, hle⟩ := skipPrologueLoop_spec tokens fuel (idx + 1) (by omega)
  exact ⟨idx', heq, hle⟩

theorem skipToEndOfLine_spec (tokens : List Token) {fuel idx : Nat}
    (h : tokens.length - idx < fuel) :
    ∃ idx', skipToEndOfLine tokens fuel idx = some idx' ∧ idx ≤ idx' :=
  skipToEndOfLineLoop_spec tokens _ fuel idx h

theorem parseTokenDeclarationLoop_succ (tokens : List Token)
    (typeTag : Option Str) (fuel idx : Nat) (t : SymbolTable) :
    parseTokenDeclarationLoop tokens typeTag (fuel + 1) idx t =
    match tokens.get? idx with
    | none => some (idx, t)
    | some tk =>
      if tk.type = TokenType.IDENTIFIER then
        let r := createRange tk
        let t1 := (t.addSymbol tk.value .Token (some ⟨r, r⟩)).1
        let t2 := match typeTag with
          | some tg => if tg.isEmpty then t1 else t1.setPlainTypeTag tk.value tg
          | none => t1
        parseTokenDeclarationLoop tokens typeTag fuel (idx + 1) t2
      else if tk.type = TokenType.CHARACTER then
        parseTokenDeclarationLoop tokens typeTag fuel (idx + 1) t
      else if tk.type = TokenType.STRING then
        parseTokenDeclarationLoop tokens typeTag fuel (idx + 1) t
      else if isEndOfDeclaration tk then some (idx, t)
      else parseTokenDeclarationLoop tokens typeTag fuel (idx + 1) t := rfl

theorem parseTokenDeclarationLoop_spec (tokens : List Token)
    (typeTag : Option Str) :
    ∀ fuel idx t, tokens.length - idx < fuel →
    ∃ idx' t', parseTokenDeclarationLoop tokens typeTag fuel idx t =
      some (idx', t') ∧ idx ≤ idx' ∧ (WfTable t → WfTable t') := by
  intro fuel
  induction fuel with
  | zero => intro idx t h; omega
  | succ fuel ih =>
    intro idx t h
    rw [parseTokenDeclarationLoop_succ]
    cases htk : tokens.get? idx with
    | none => exact ⟨idx, t, rfl, le_refl idx, id⟩
    | some tk =>
      have hlt := get?_some_lt htk
      dsimp only
      split_ifs with h1 h2 h3 h4
      · cases typeTag with
        | none =>
          obtain ⟨idx', t', heq, hle, hwf⟩ := ih (idx + 1) _ (by omega)
          exact ⟨idx', t', heq, by omega,
            fun hw => hwf (wf_addSymbol (by simp) hw)⟩
        | some tg =>
          dsimp only
          split_ifs with hemp
          · obtain ⟨idx', t', heq, hle, hwf⟩ := ih (idx + 1) _ (by omega)
            exact ⟨idx', t', heq, by omega,
              fun hw => hwf (wf_addSymbol (by simp) hw)⟩
          · obtain ⟨idx', t', heq, hle, hwf⟩ := ih (idx + 1) _ (by omega)
            exact ⟨idx', t', heq, by omega,
              fun hw => hwf (wf_setPlainTypeTag (wf_addSymbol (by simp) hw))⟩
      · obtain ⟨idx', t', heq, hle, hwf⟩ := ih (idx + 1) t (by omega)
        exact ⟨idx', t', heq, by omega, hwf⟩
      · obtain ⟨idx', t', heq, hle, hwf⟩ := ih (idx + 1) t (by omega)
        exact ⟨idx', t', heq, by omega, hwf⟩
      · exact ⟨idx, t, rfl, le_refl idx, id⟩
      · obtain ⟨idx', t', heq, hle, hwf⟩ := ih (idx + 1) t (by omega)
        exact ⟨idx', t', heq, by omega, hwf⟩

theorem parseTypeDeclarationLoop_succ (tokens : List Token)
    (typeTag : Option Str) (fuel idx : Nat) (t : SymbolTable) :
    parseTypeDeclarationLoop tokens typeTag (fuel + 1) idx t =
    match tokens.get? idx with
    | none => some (idx, t)
    | some tk =>
      if tk.type = TokenType.IDENTIFIER then
        let r := createRange tk
        let t1 := (t.addSymbol tk.value .TypeDecl (some ⟨r, r⟩)).1
        let t2 := match typeTag with
          | some tg => if tg.isEmpty then t1 else t1.setPlainTypeTag tk.value tg
          | none => t1
        parseTypeDeclarationLoop tokens typeTag fuel (idx + 1) t2
      else if isEndOfDeclaration tk then some (idx, t)
      else parseTypeDeclarationLoop tokens typeTag fuel (idx + 1) t := rfl

theorem parseTypeDeclarationLoop_spec (tokens : List Token)
    (typeTag : Option Str) :
    ∀ fuel idx t, tokens.length - idx < fuel →
    ∃ idx' t', parseTypeDeclarationLoop tokens typeTag fuel idx t =
      some (idx', t') ∧ idx ≤ idx' ∧ (WfTable t → WfTable t') := by
  intro fuel
  induction fuel with
  | zero => intro idx t h; omega
  | succ fuel ih =>
    intro idx t h
    rw [parseTypeDeclarationLoop_succ]
    cases htk : tokens.get? idx with
    | none => exact ⟨idx, t, rfl, le_refl idx, id⟩
    | some tk =>
      have hlt := get?_some_lt htk
      dsimp only
      split_ifs with h1 h2
      · cases typeTag with
        | none =>
          obtain ⟨idx', t', heq, hle, hwf⟩ := ih (idx + 1) _ (by omega)
          exact ⟨idx', t', heq, by omega,
            fun hw => hwf (wf_addSymbol (by simp) hw)⟩
        | some tg =>
          dsimp only
          split_ifs with hemp
          · obtain ⟨idx', t', heq, hle, hwf⟩ := ih (idx + 1) _ (by omega)
            exact ⟨idx', t', heq, by omega,
              fun hw => hwf (wf_addSymbol (by simp) hw)⟩
          · obtain ⟨idx', t', heq, hle, hwf⟩ := ih (idx + 1) _ (by omega)
            exact ⟨idx', t', heq, by omega,
              fun hw => hwf (wf_setPlainTypeTag (wf_addSymbol (by simp) hw))⟩
      · exact ⟨idx, t, rfl, le_refl idx, id⟩
      · obtain ⟨idx', t', heq, hle, hwf⟩ := ih (idx + 1) t (by omega)
        exact ⟨idx', t', heq, by omega, hwf⟩

theorem parseNtermDeclarationLoop_succ (tokens : List Token)
    (typeTag : Option Str) (fuel idx : Nat) (t : SymbolTable) :
    parseNtermDeclarationLoop tokens typeTag (fuel + 1) idx t =
    match tokens.get? idx with
    | none => some (idx, t)
    | some tk =>
      if tk.type = TokenType.IDENTIFIER then
        let r := createRange tk
        let t1 := (t.addSymbol tk.value .Nonterminal (some ⟨r, r⟩)).1
        let t2 := match typeTag with
          | some tg => if tg.isEmpty then t1 else t1.setPlainTypeTag tk.value tg
          | none => t1
        parseNtermDeclarationLoop tokens typeTag fuel (idx + 1) t2
      else if isEndOfDeclaration tk then some (idx, t)
      else parseNtermDeclarationLoop tokens typeTag fuel (idx + 1) t := rfl

theorem parseNtermDeclarationLoop_spec (tokens : List Token)
    (typeTag : Option Str) :
    ∀ fuel idx t, tokens.length - idx < fuel →
    ∃ idx' t', parseNtermDeclarationLoop tokens typeTag fuel idx t =
      some (idx', t') ∧ idx ≤ idx' ∧ (WfTable t → WfTable t') := by
  intro fuel
  induction fuel with
  | zero => intro idx t h; omega
  | succ fuel ih =>
    intro idx t h
    rw [parseNtermDeclarationLoop_succ]
    cases htk : tokens.get? idx with
    | none => exact ⟨idx, t, rfl, le_refl idx, id⟩
    | some tk =>
      have hlt := get?_some_lt htk
      dsimp only
      split_ifs with h1 h2
      · cases typeTag with
        | none =>
          obtain ⟨idx', t', heq, hle, hwf⟩ := ih (idx + 1) _ (by omega)
          exact ⟨idx', t', heq, by omega,
            fun hw => hwf (wf_addSymbol (by simp) hw)⟩
        | some tg =>
          dsimp only
          split_ifs with hemp
          · obtain ⟨idx', t', heq, hle, hwf⟩ := ih (idx + 1) _ (by omega)
            exact ⟨idx', t', heq, by omega,
              fun hw => hwf (wf_addSymbol (by simp) hw)⟩
          · obtain ⟨idx', t', heq, hle, hwf⟩ := ih (idx + 1) _ (by omega)
            exact ⟨idx', t', heq, by omega,
              fun hw => hwf (wf_setPlainTypeTag (wf_addSymbol (by simp) hw))⟩
      · exact ⟨idx, t, rfl, le_refl idx, id⟩
      · obtain ⟨idx', t', heq, hle, hwf⟩ := ih (idx + 1) t (by omega)
        exact ⟨idx', t', heq, by omega, hwf⟩

theorem parsePrecedenceDeclarationLoop_succ (tokens : List Token)
    (fuel idx : Nat) (t : SymbolTable) :
    parsePrecedenceDeclarationLoop tokens (fuel + 1) idx t =
    match tokens.get? idx with
    | none => some (idx, t)
    | some tk =>
      if tk.type = TokenType.IDENTIFIER then
        let r := createRange tk
        parsePrecedenceDeclarationLoop tokens fuel (idx + 1)
          (t.addSymbol tk.value .Token (some ⟨r, r⟩)).1
      else if tk.type = TokenType.CHARACTER then
        let r := createRange tk
        parsePrecedenceDeclarationLoop tokens fuel (idx + 1)
          (t.addSymbol tk.value .Token (some ⟨r, r⟩)).1
      else if isEndOfDeclaration tk then some (idx, t)
      else parsePrecedenceDeclarationLoop tokens fuel (idx + 1) t := rfl

theorem parsePrecedenceDeclarationLoop_spec (tokens : List Token) :
    ∀ fuel idx t, tokens.length - idx < fuel →
    ∃ idx' t', parsePrecedenceDeclarationLoop tokens fuel idx t =
      some (idx', t') ∧ idx ≤ idx' ∧ (WfTable t → WfTable t') := by
  intro fuel
  induction fuel with
  | zero => intro idx t h; omega
  | succ fuel ih =>
    intro idx t h
    rw [parsePrecedenceDeclarationLoop_succ]
    cases htk : tokens.get? idx with
    | none => exact ⟨idx, t, rfl, le_refl idx, id⟩
    | some tk =>
      have hlt := get?_some_lt htk
      dsimp only
      split_ifs with h1 h2 h3
      · obtain ⟨idx', t', heq, hle, hwf⟩ := ih (idx + 1) _ (by omega)
        exact ⟨idx', t', heq, by omega, fun hw => hwf (wf_addSymbol (by simp) hw)⟩
      · obtain ⟨idx', t', heq, hle, hwf⟩ := ih (idx + 1) _ (by omega)
        exact ⟨idx', t', heq, by omega, fun hw => hwf (wf_addSymbol (by simp) hw)⟩
      · exact ⟨idx, t, rfl, le_refl idx, id⟩
      · obtain ⟨idx', t', heq, hle, hwf⟩ := ih (idx + 1) t (by omega)
        exact ⟨idx', t', heq, by omega, hwf⟩

theorem parseParamListLoop_succ (tokens : List Token) (fuel idx : Nat)
    (acc : List Str) :
    parseParamListLoop tokens (fuel + 1) idx acc =
    match tokens.get? idx with
    | none => some (acc, idx)
    | some tk =>
      if tk.type = TokenType.SPECIAL ∧ tk.value = ")".data then some (acc, idx + 1)
      else if tk.type = TokenType.IDENTIFIER then
        parseParamListLoop tokens fuel (idx + 1) (acc ++ [tk.value])
      else parseParamListLoop tokens fuel (idx + 1) acc := rfl

theorem parseParamListLoop_spec (tokens : List Token) :
    ∀ fuel idx acc, tokens.length - idx < fuel →
    ∃ ps idx', parseParamListLoop tokens fuel idx acc = some (ps, idx') ∧
      idx ≤ idx' := by
  intro fuel
  induction fuel with
  | zero => intro idx acc h; omega
  | succ fuel ih =>
    intro idx acc h
    rw [parseParamListLoop_succ]
    cases htk : tokens.get? idx with
    | none => exact ⟨acc, idx, rfl, le_refl idx⟩
    | some tk =>
      have hlt := get?_some_lt htk
      dsimp only
      split_ifs with h1 h2
      · exact ⟨acc, idx + 1, rfl, by omega⟩
      · obtain ⟨ps, idx', heq, hle⟩ := ih (idx + 1) (acc ++ [tk.value]) (by omega)
        exact ⟨ps, idx', heq, by omega⟩
      · obtain ⟨ps, idx', heq, hle⟩ := ih (idx + 1) acc (by omega)
        exact ⟨ps, idx', heq, by omega⟩

theorem parseArgumentListLoop_succ (tokens : List Token) (fuel : Nat)
    (parenDepth : Int) (args : List Str) (idx : Nat) (t : SymbolTable) :
    parseArgumentListLoop tokens (fuel + 1) parenDepth args idx t =
    (if parenDepth > 0 then
      match tokens.get? idx with
      | none => some (idx, args, t)
      | some tk =>
        if tk.type = TokenType.SPECIAL ∧ tk.value = "(".data then
          parseArgumentListLoop tokens fuel (parenDepth + 1) args (idx + 1) t
        else if tk.type = TokenType.SPECIAL ∧ tk.value = ")".data then
          if parenDepth - 1 = 0 then some (idx + 1, args, t)
          else parseArgumentListLoop tokens fuel (parenDepth - 1) args (idx + 1) t
        else if tk.type = TokenType.SPECIAL ∧ tk.value = ",".data ∧ parenDepth = 1 then
          parseArgumentListLoop tokens fuel parenDepth args (idx + 1) t
        else if tk.type = TokenType.IDENTIFIER ∧ parenDepth = 1 then
          let r := createRange tk
          parseArgumentListLoop tokens fuel parenDepth (args ++ [tk.value]) (idx + 1)
            (t.addReference tk.value ⟨r⟩)
        else if tk.type = TokenType.CHARACTER ∧ parenDepth = 1 then
          parseArgumentListLoop tokens fuel parenDepth (args ++ [tk.value]) (idx + 1) t
        else parseArgumentListLoop tokens fuel parenDepth args (idx + 1) t
    else some (idx, args, t)) := rfl

theorem parseArgumentListLoop_spec (tokens : List Token) :
    ∀ fuel (parenDepth : Int) args idx t, tokens.length - idx < fuel →
    ∃ idx' args' t', parseArgumentListLoop tokens fuel parenDepth args idx t =
      some (idx', args', t') ∧ idx ≤ idx' ∧ (WfTable t → WfTable t') := by
  intro fuel
  induction fuel with
  | zero => intro d args idx t h; omega
  | succ fuel ih =>
    intro d args idx t h
    rw [parseArgumentListLoop_succ]
    by_cases hd : d > 0
    · rw [if_pos hd]
      cases htk : tokens.get? idx with
      | none => exact ⟨idx, args, t, rfl, le_refl idx, id⟩
      | some tk =>
        have hlt := get?_some_lt htk
        dsimp only
        split_ifs with h1 h2 h3 h4 h5 h6
        · obtain ⟨idx', args', t', heq, hle, hwf⟩ := ih _ _ (idx + 1) t (by omega)
          exact ⟨idx', args', t', heq, by omega, hwf⟩
        · exact ⟨idx + 1, args, t, rfl, by omega, id⟩
        · obtain ⟨idx', args', t', heq, hle, hwf⟩ := ih _ _ (idx + 1) t (by omega)
          exact ⟨idx', args', t', heq, by omega, hwf⟩
        · obtain ⟨idx', args', t', heq, hle, hwf⟩ := ih _ _ (idx + 1) t (by omega)
          exact ⟨idx', args', t', heq, by omega, hwf⟩
        · obtain ⟨idx', args', t', heq, hle, hwf⟩ := ih _ _ (idx + 1) _ (by omega)
          exact ⟨idx', args', t', heq, by omega,
            fun hw => hwf (wf_addReference hw)⟩
        · obtain ⟨idx', args', t', heq, hle, hwf⟩ := ih _ _ (idx + 1) t (by omega)
          exact ⟨idx', args', t', heq, by omega, hwf⟩
        · obtain ⟨idx', args', t', heq, hle, hwf⟩ := ih _ _ (idx + 1) t (by omega)
          exact ⟨idx', args', t', heq, by omega, hwf⟩
    · rw [if_neg hd]
      exact ⟨idx, args, t, rfl, le_refl idx, id⟩

theorem parseArgumentList_spec (tokens : List Token) {idx : Nat}
    {t : SymbolTable} (h : tokens.length - idx < fullFuel tokens) :
    ∃ idx' args' t', parseArgumentList tokens idx t = some (idx', args', t') ∧
      idx ≤ idx' ∧ (WfTable t → WfTable t') :=
  parseArgumentListLoop_spec tokens (fullFuel tokens) 1 [] idx t h

theorem parseArgumentListWithContextLoop_succ (tokens : List Token)
    (knownParameters : List Str) (fuel : Nat) (parenDepth : Int)
    (args : List Str) (idx : Nat) (t : SymbolTable) :
    parseArgumentListWithContextLoop tokens knownParameters (fuel + 1)
      parenDepth args idx t =
    (if parenDepth > 0 then
      match tokens.get? idx with
      | none => some (idx, args, t)
      | some tk =>
        if tk.type = TokenType.SPECIAL ∧ tk.value = "(".data then
          parseArgumentListWithContextLoop tokens knownParameters fuel
            (parenDepth + 1) args (idx + 1) t
        else if tk.type = TokenType.SPECIAL ∧ tk.value = ")".data then
          if parenDepth - 1 = 0 then some (idx + 1, args, t)
          else parseArgumentListWithContextLoop tokens knownParameters fuel
            (parenDepth - 1) args (idx + 1) t
        else if tk.type = TokenType.SPECIAL ∧ tk.value = ",".data ∧ parenDepth = 1 then
          parseArgumentListWithContextLoop tokens knownParameters fuel
            parenDepth args (idx + 1) t
        else if tk.type = TokenType.IDENTIFIER ∧ parenDepth = 1 then
          let t' := if knownParameters.contains tk.value then t
            else t.addReference tk.value ⟨createRange tk⟩
          parseArgumentListWithContextLoop tokens knownParameters fuel
            parenDepth (args ++ [tk.value]) (idx + 1) t'
        else if tk.type = TokenType.CHARACTER ∧ parenDepth = 1 then
          parseArgumentListWithContextLoop tokens knownParameters fuel
            parenDepth (args ++ [tk.value]) (idx + 1) t
        else parseArgumentListWithContextLoop tokens knownParameters fuel
          parenDepth args (idx + 1) t
    else some (idx, args, t)) := rfl

theorem parseArgumentListWithContextLoop_spec (tokens : List Token)
    (knownParameters : List Str) :
    ∀ fuel (parenDepth : Int) args idx t, tokens.length - idx < fuel →
    ∃ idx' args' t',
      parseArgumentListWithContextLoop tokens knownParameters fuel
        parenDepth args idx t = some (idx', args', t') ∧
      idx ≤ idx' ∧ (WfTable t → WfTable t') := by
  intro fuel
  induction fuel with
  | zero => intro d args idx t h; omega
  | succ fuel ih =>
    intro d args idx t h
    rw [parseArgumentListWithContextLoop_succ]
    by_cases hd : d > 0
    · rw [if_pos hd]
      cases htk : tokens.get? idx with
      | none => exact ⟨idx, args, t, rfl, le_refl idx, id⟩
      | some tk =>
        have hlt := get?_some_lt htk
        dsimp only
        split_ifs with h1 h2 h3 h4 h5 h6 h7
        · obtain ⟨idx', args', t', heq, hle, hwf⟩ := ih _ _ (idx + 1) t (by omega)
          exact ⟨idx', args', t', heq, by omega, hwf⟩
        · exact ⟨idx + 1, args, t, rfl, by omega, id⟩
        · obtain ⟨idx', args', t', heq, hle, hwf⟩ := ih _ _ (idx + 1) t (by omega)
          exact ⟨idx', args', t', heq, by omega, hwf⟩
        · obtain ⟨idx', args', t', heq, hle, hwf⟩ := ih _ _ (idx + 1) t (by omega)
          exact ⟨idx', args', t', heq, by omega, hwf⟩
        · obtain ⟨idx', args', t', heq, hle, hwf⟩ := ih _ _ (idx + 1) t (by omega)
          exact ⟨idx', args', t', heq, by omega, hwf⟩
        · obtain ⟨idx', args', t', heq, hle, hwf⟩ := ih _ _ (idx + 1) _ (by omega)
          exact ⟨idx', args', t', heq, by omega,
            fun hw => hwf (wf_addReference hw)⟩
        · obtain ⟨idx', args', t', heq, hle, hwf⟩ := ih _ _ (idx + 1) t (by omega)
          exact ⟨idx', args', t', heq, by omega, hwf⟩
        · obtain ⟨idx', args', t', heq, hle, hwf⟩ := ih _ _ (idx + 1) t (by omega)
          exact ⟨idx', args', t', heq, by omega, hwf⟩
    · rw [if_neg hd]
      exact ⟨idx, args, t, rfl, le_refl idx, id⟩

theorem parseArgumentListWithContext_spec (tokens : List Token)
    (knownParameters : List Str) {idx : Nat} {t : SymbolTable}
    (h : tokens.length - idx < fullFuel tokens) :
    ∃ idx' args' t',
      parseArgumentListWithContext tokens knownParameters idx t =
        some (idx', args', t') ∧ idx ≤ idx' ∧ (WfTable t → WfTable t') :=
  parseArgumentListWithContextLoop_spec tokens knownParameters
    (fullFuel tokens) 1 [] idx t h

theorem parseRuleBody_succ (tokens : List Token) (fuel idx : Nat)
    (t : SymbolTable) :
    parseRuleBody tokens (fuel + 1) idx t =
    match tokens.get? idx with
    | none => some (idx, t)
    | some tk =>
      if tk.type = TokenType.SPECIAL ∧ tk.value = ";".data then some (idx + 1, t)
      else if tk.type = TokenType.SPECIAL ∧ tk.value = "|".data then
        parseRuleBody tokens fuel (idx + 1) t
      else if tk.type = TokenType.SPECIAL ∧ tk.value = "\x7b".data then do
        let idx1 ← skipCodeBlock tokens (fullFuel tokens) idx
        let idx2 := match tokens.get? idx1 with
          | some tk2 => if tk2.type = TokenType.TYPE_TAG then idx1 + 1 else idx1
          | none => idx1
        parseRuleBody tokens fuel idx2 t
      else if tk.type = TokenType.DIRECTIVE then
        if tk.value = "%prec".data then
          let idx1 := idx + 1
          match tokens.get? idx1 with
          | some precTok =>
            if precTok.type = TokenType.IDENTIFIER ∨ precTok.type = TokenType.CHARACTER then
              parseRuleBody tokens fuel (idx1 + 1)
                (t.addReference precTok.value ⟨createRange precTok⟩)
            else parseRuleBody tokens fuel idx1 t
          | none => parseRuleBody tokens fuel idx1 t
        else if tk.value = "%empty".data then parseRuleBody tokens fuel (idx + 1) t
        else parseRuleBody tokens fuel (idx + 1) t
      else if tk.type = TokenType.IDENTIFIER then
        let nextIndex := idx + 1
        if isTok (tokens.get? nextIndex) TokenType.SPECIAL "(".data then do
          let callRange := createRange tk
          let (idx2, args, t2) ← parseArgumentList tokens (nextIndex + 1) t
          let t3 := t2.addParameterizedCall tk.value ⟨callRange, args⟩
          let idx3 ← (match tokens.get? idx2 with
            | some b =>
              if b.type = TokenType.SPECIAL ∧ b.value = "[".data then
                skipNamedReference tokens (fullFuel tokens) idx2
              else some idx2
            | none => some idx2)
          parseRuleBody tokens fuel idx3 t3
        else do
          let t2 := t.addReference tk.value ⟨createRange tk⟩
          let idx2 := idx + 1
          let idx3 ← (match tokens.get? idx2 with
            | some b =>
              if b.type = TokenType.SPECIAL ∧ b.value = "[".data then
                skipNamedReference tokens (fullFuel tokens) idx2
              else some idx2
            | none => some idx2)
          let idx4 := match tokens.get? idx3 with
            | some sfx =>
              if sfx.type = TokenType.SPECIAL ∧ isSuffixOp sfx.value then idx3 + 1 else idx3
            | none => idx3
          parseRuleBody tokens fuel idx4 t2
      else if tk.type = TokenType.CHARACTER then
        let idx2 := idx + 1
        let idx3 := match tokens.get? idx2 with
          | some sfx =>
            if sfx.type = TokenType.SPECIAL ∧ isSuffixOp sfx.value then idx2 + 1 else idx2
          | none => idx2
        parseRuleBody tokens fuel idx3 t
      else parseRuleBody tokens fuel (idx + 1) t := rfl

theorem parseRuleBody_spec (tokens : List Token) :
    ∀ fuel idx t, tokens.length - idx < fuel →
    ∃ idx' t', parseRuleBody tokens fuel idx t = some (idx', t') ∧
      idx ≤ idx' ∧ (WfTable t → WfTable t') := by
  intro fuel
  induction fuel with
  | zero => intro idx t h; omega
  | succ fuel ih =>
    intro idx t h
    rw [parseRuleBody_succ]
    cases htk : tokens.get? idx with
    | none => exact ⟨idx, t, rfl, le_refl idx, id⟩
    | some tk =>
      have hlt := get?_some_lt htk
      dsimp only
      by_cases h1 : tk.type = TokenType.SPECIAL ∧ tk.value = ";".data
      · rw [if_pos h1]
        exact ⟨idx + 1, t, rfl, by omega, id⟩
      rw [if_neg h1]
      by_cases h2 : tk.type = TokenType.SPECIAL ∧ tk.value = "|".data
      · rw [if_pos h2]
        obtain ⟨idx', t', heq, hle, hwf⟩ := ih (idx + 1) t (by omega)
        exact ⟨idx', t', heq, by omega, hwf⟩
      rw [if_neg h2]
      by_cases h3 : tk.type = TokenType.SPECIAL ∧ tk.value = "\x7b".data
      · rw [if_pos h3]
        obtain ⟨idx1, heq1, hle1, hstrict⟩ :=
          skipCodeBlock_spec tokens (show tokens.length - idx < fullFuel tokens by
            unfold fullFuel; omega)
        rw [heq1]
        simp only [Option.bind_eq_bind, Option.some_bind]
        have hadv1 : idx + 1 ≤ idx1 := hstrict hlt
        cases hm : tokens.get? idx1 with
        | none =>
          dsimp only
          obtain ⟨idx', t', heq, hle, hwf⟩ := ih idx1 t (by omega)
          exact ⟨idx', t', heq, by omega, hwf⟩
        | some tk2 =>
          dsimp only
          split_ifs with htag
          · obtain ⟨idx', t', heq, hle, hwf⟩ := ih (idx1 + 1) t (by omega)
            exact ⟨idx', t', heq, by omega, hwf⟩
          · obtain ⟨idx', t', heq, hle, hwf⟩ := ih idx1 t (by omega)
            exact ⟨idx', t', heq, by omega, hwf⟩
      rw [if_neg h3]
      by_cases h4 : tk.type = TokenType.DIRECTIVE
      · rw [if_pos h4]
        by_cases h5 : tk.value = "%prec".data
        · rw [if_pos h5]
          cases hm : tokens.get? (idx + 1) with
          | none =>
            dsimp only
            obtain ⟨idx', t', heq, hle, hwf⟩ := ih (idx + 1) t (by omega)
            exact ⟨idx', t', heq, by omega, hwf⟩
          | some precTok =>
            dsimp only
            split_ifs with hp
            · obtain ⟨idx', t', heq, hle, hwf⟩ := ih (idx + 2) _ (by omega)
              exact ⟨idx', t', heq, by omega,
                fun hw => hwf (wf_addReference hw)⟩
            · obtain ⟨idx', t', heq, hle, hwf⟩ := ih (idx + 1) t (by omega)
              exact ⟨idx', t', heq, by omega, hwf⟩
        rw [if_neg h5]
        by_cases h6 : tk.value = "%empty".data
        · rw [if_pos h6]
          obtain ⟨idx', t', heq, hle, hwf⟩ := ih (idx + 1) t (by omega)
          exact ⟨idx', t', heq, by omega, hwf⟩
        · rw [if_neg h6]
          obtain ⟨idx', t', heq, hle, hwf⟩ := ih (idx + 1) t (by omega)
          exact ⟨idx', t', heq, by omega, hwf⟩
      rw [if_neg h4]
      by_cases h7 : tk.type = TokenType.IDENTIFIER
      · rw [if_pos h7]
        by_cases h8 : isTok (tokens.get? (idx + 1)) TokenType.SPECIAL "(".data = true
        · rw [if_pos h8]
          obtain ⟨idx2, args, t2, heq2, hle2, hwf2⟩ :=
            parseArgumentList_spec tokens
              (show tokens.length - (idx + 1 + 1) < fullFuel tokens by
                unfold fullFuel; omega)
          rw [heq2]
          simp only [Option.bind_eq_bind, Option.some_bind]
          have hrest : ∀ idx3, idx2 ≤ idx3 →
              (∃ idx' t', parseRuleBody tokens fuel idx3
                  (SymbolTable.addParameterizedCall t2 tk.value
                    ⟨createRange tk, args⟩) = some (idx', t') ∧
                idx ≤ idx' ∧ (WfTable t → WfTable t')) := by
            intro idx3 hge
            obtain ⟨idx', t', heq, hle, hwf⟩ := ih idx3 _ (by omega)
            exact ⟨idx', t', heq, by omega,
              fun hw => hwf (wf_addParameterizedCall (hwf2 hw))⟩
          cases hm : tokens.get? idx2 with
          | none =>
            simp only [Option.bind_eq_bind, Option.some_bind]
            exact hrest idx2 (le_refl idx2)
          | some b =>
            dsimp only
            split_ifs with hb
            · obtain ⟨idx3, heq3, hle3⟩ := skipNamedReference_spec tokens
                (show tokens.length - idx2 < fullFuel tokens by
                  unfold fullFuel; omega)
              rw [heq3]
              simp only [Option.bind_eq_bind, Option.some_bind]
              exact hrest idx3 (by omega)
            · simp only [Option.bind_eq_bind, Option.some_bind]
              exact hrest idx2 (le_refl idx2)
        · rw [if_neg h8]
          have hrest : ∀ idx4, idx + 1 ≤ idx4 →
              (∃ idx' t', parseRuleBody tokens fuel idx4
                  (t.addReference tk.value ⟨createRange tk⟩) = some (idx', t') ∧
                idx ≤ idx' ∧ (WfTable t → WfTable t')) := by
            intro idx4 hge
            obtain ⟨idx', t', heq, hle, hwf⟩ := ih idx4 _ (by omega)
            exact ⟨idx', t', heq, by omega, fun hw => hwf (wf_addReference hw)⟩
          have hsuffix : ∀ idx3, idx + 1 ≤ idx3 →
              (∃ idx' t',
                (parseRuleBody tokens fuel
                  (match tokens.get? idx3 with
                   | some sfx =>
                     if sfx.type = TokenType.SPECIAL ∧ isSuffixOp sfx.value then
                       idx3 + 1 else idx3
                   | none => idx3)
                  (t.addReference tk.value ⟨createRange tk⟩)) = some (idx', t') ∧
                idx ≤ idx' ∧ (WfTable t → WfTable t')) := by
            intro idx3 hge
            cases hm2 : tokens.get? idx3 with
            | none => exact hrest idx3 hge
            | some sfx =>
              dsimp only
              split_ifs with hs
              · exact hrest (idx3 + 1) (by omega)
              · exact hrest idx3 hge
          cases hm : tokens.get? (idx + 1) with
          | none =>
            simp only [Option.bind_eq_bind, Option.some_bind]
            exact hsuffix (idx + 1) (le_refl _)
          | some b =>
            dsimp only
            split_ifs with hb
            · obtain ⟨idx3, heq3, hle3⟩ := skipNamedReference_spec tokens
                (show tokens.length - (idx + 1) < fullFuel tokens by
                  unfold fullFuel; omega)
              rw [heq3]
              simp only [Option.bind_eq_bind, Option.some_bind]
              exact hsuffix idx3 (by omega)
            · simp only [Option.bind_eq_bind, Option.some_bind]
              exact hsuffix (idx + 1) (le_refl _)
      rw [if_neg h7]
      by_cases h9 : tk.type = TokenType.CHARACTER
      · rw [if_pos h9]
        cases hm : tokens.get? (idx + 1) with
        | none =>
          dsimp only
          obtain ⟨idx', t', heq, hle, hwf⟩ := ih (idx + 1) t (by omega)
          exact ⟨idx', t', heq, by omega, hwf⟩
        | some sfx =>
          dsimp only
          split_ifs with hs
          · obtain ⟨idx', t', heq, hle, hwf⟩ := ih (idx + 2) t (by omega)
            exact ⟨idx', t', heq, by omega, hwf⟩
          · obtain ⟨idx', t', heq, hle, hwf⟩ := ih (idx + 1) t (by omega)
            exact ⟨idx', t', heq, by omega, hwf⟩
      · rw [if_neg h9]
        obtain ⟨idx', t', heq, hle, hwf⟩ := ih (idx + 1) t (by omega)
        exact ⟨idx', t', heq, by omega, hwf⟩

theorem parseParameterizedRuleBody_succ (tokens : List Token)
    (currentParameters : List Str) (fuel idx : Nat) (t : SymbolTable) :
    parseParameterizedRuleBody tokens currentParameters (fuel + 1) idx t =
    match tokens.get? idx with
    | none => some (idx, t)
    | some tk =>
      if tk.type = TokenType.SPECIAL ∧ tk.value = ";".data then some (idx + 1, t)
      else if tk.type = TokenType.SPECIAL ∧ tk.value = "|".data then
        parseParameterizedRuleBody tokens currentParameters fuel (idx + 1) t
      else if tk.type = TokenType.SPECIAL ∧ tk.value = "\x7b".data then do
        let idx1 ← skipCodeBlock tokens (fullFuel tokens) idx
        let idx2 := match tokens.get? idx1 with
          | some tk2 => if tk2.type = TokenType.TYPE_TAG then idx1 + 1 else idx1
          | none => idx1
        parseParameterizedRuleBody tokens currentParameters fuel idx2 t
      else if tk.type = TokenType.DIRECTIVE then
        if tk.value = "%prec".data then
          let idx1 := idx + 1
          match tokens.get? idx1 with
          | some precTok =>
            if precTok.type = TokenType.IDENTIFIER ∨ precTok.type = TokenType.CHARACTER then
              parseParameterizedRuleBody tokens currentParameters fuel (idx1 + 1)
                (t.addReference precTok.value ⟨createRange precTok⟩)
            else parseParameterizedRuleBody tokens currentParameters fuel idx1 t
          | none => parseParameterizedRuleBody tokens currentParameters fuel idx1 t
        else if tk.value = "%empty".data then
          parseParameterizedRuleBody tokens currentParameters fuel (idx + 1) t
        else parseParameterizedRuleBody tokens currentParameters fuel (idx + 1) t
      else if tk.type = TokenType.IDENTIFIER then
        let nextIndex := idx + 1
        if isTok (tokens.get? nextIndex) TokenType.SPECIAL "(".data then do
          let callRange := createRange tk
          let (idx2, args, t2) ←
            parseArgumentListWithContext tokens currentParameters (nextIndex + 1) t
          let t3 := t2.addParameterizedCall tk.value ⟨callRange, args⟩
          let idx3 ← (match tokens.get? idx2 with
            | some b =>
              if b.type = TokenType.SPECIAL ∧ b.value = "[".data then
                skipNamedReference tokens (fullFuel tokens) idx2
              else some idx2
            | none => some idx2)
          parseParameterizedRuleBody tokens currentParameters fuel idx3 t3
        else if currentParameters.contains tk.value then
          parseParameterizedRuleBody tokens currentParameters fuel (idx + 1) t
        else do
          let t2 := t.addReference tk.value ⟨createRange tk⟩
          let idx2 := idx + 1
          let idx3 ← (match tokens.get? idx2 with
            | some b =>
              if b.type = TokenType.SPECIAL ∧ b.value = "[".data then
                skipNamedReference tokens (fullFuel tokens) idx2
              else some idx2
            | none => some idx2)
          let idx4 := match tokens.get? idx3 with
            | some sfx =>
              if sfx.type = TokenType.SPECIAL ∧ isSuffixOp sfx.value then idx3 + 1 else idx3
            | none => idx3
          parseParameterizedRuleBody tokens currentParameters fuel idx4 t2
      else if tk.type = TokenType.CHARACTER then
        let idx2 := idx + 1
        let idx3 := match tokens.get? idx2 with
          | some sfx =>
            if sfx.type = TokenType.SPECIAL ∧ isSuffixOp sfx.value then idx2 + 1 else idx2
          | none => idx2
        parseParameterizedRuleBody tokens currentParameters fuel idx3 t
      else parseParameterizedRuleBody tokens currentParameters fuel (idx + 1) t := rfl

theorem parseParameterizedRuleBody_spec (tokens : List Token)
    (currentParameters : List Str) :
    ∀ fuel idx t, tokens.length - idx < fuel →
    ∃ idx' t', parseParameterizedRuleBody tokens currentParameters fuel idx t =
      some (idx', t') ∧ idx ≤ idx' ∧ (WfTable t → WfTable t') := by
  intro fuel
  induction fuel with
  | zero => intro idx t h; omega
  | succ fuel ih =>
    intro idx t h
    rw [parseParameterizedRuleBody_succ]
    cases htk : tokens.get? idx with
    | none => exact ⟨idx, t, rfl, le_refl idx, id⟩
    | some tk =>
      have hlt := get?_some_lt htk
      dsimp only
      by_cases h1 : tk.type = TokenType.SPECIAL ∧ tk.value = ";".data
      · rw [if_pos h1]
        exact ⟨idx + 1, t, rfl, by omega, id⟩
      rw [if_neg h1]
      by_cases h2 : tk.type = TokenType.SPECIAL ∧ tk.value = "|".data
      · rw [if_pos h2]
        obtain ⟨idx', t', heq, hle, hwf⟩ := ih (idx + 1) t (by omega)
        exact ⟨idx', t', heq, by omega, hwf⟩
      rw [if_neg h2]
      by_cases h3 : tk.type = TokenType.SPECIAL ∧ tk.value = "\x7b".data
      · rw [if_pos h3]
        obtain ⟨idx1, heq1, hle1, hstrict⟩ :=
          skipCodeBlock_spec tokens (show tokens.length - idx < fullFuel tokens by
            unfold fullFuel; omega)
        rw [heq1]
        simp only [Option.bind_eq_bind, Option.some_bind]
        have hadv1 : idx + 1 ≤ idx1 := hstrict hlt
        cases hm : tokens.get? idx1 with
        | none =>
          dsimp only
          obtain ⟨idx', t', heq, hle, hwf⟩ := ih idx1 t (by omega)
          exact ⟨idx', t', heq, by omega, hwf⟩
        | some tk2 =>
          dsimp only
          split_ifs with htag
          · obtain ⟨idx', t', heq, hle, hwf⟩ := ih (idx1 + 1) t (by omega)
            exact ⟨idx', t', heq, by omega, hwf⟩
          · obtain ⟨idx', t', heq, hle, hwf⟩ := ih idx1 t (by omega)
            exact ⟨idx', t', heq, by omega, hwf⟩
      rw [if_neg h3]
      by_cases h4 : tk.type = TokenType.DIRECTIVE
      · rw [if_pos h4]
        by_cases h5 : tk.value = "%prec".data
        · rw [if_pos h5]
          cases hm : tokens.get? (idx + 1) with
          | none =>
            dsimp only
            obtain ⟨idx', t', heq, hle, hwf⟩ := ih (idx + 1) t (by omega)
            exact ⟨idx', t', heq, by omega, hwf⟩
          | some precTok =>
            dsimp only
            split_ifs with hp
            · obtain ⟨idx', t', heq, hle, hwf⟩ := ih (idx + 2) _ (by omega)
              exact ⟨idx', t', heq, by omega,
                fun hw => hwf (wf_addReference hw)⟩
            · obtain ⟨idx', t', heq, hle, hwf⟩ := ih (idx + 1) t (by omega)
              exact ⟨idx', t', heq, by omega, hwf⟩
        rw [if_neg h5]
        by_cases h6 : tk.value = "%empty".data
        · rw [if_pos h6]
          obtain ⟨idx', t', heq, hle, hwf⟩ := ih (idx + 1) t (by omega)
          exact ⟨idx', t', heq, by omega, hwf⟩
        · rw [if_neg h6]
          obtain ⟨idx', t', heq, hle, hwf⟩ := ih (idx + 1) t (by omega)
          exact ⟨idx', t', heq, by omega, hwf⟩
      rw [if_neg h4]
      by_cases h7 : tk.type = TokenType.IDENTIFIER
      · rw [if_pos h7]
        by_cases h8 : isTok (tokens.get? (idx + 1)) TokenType.SPECIAL "(".data = true
        · rw [if_pos h8]
          obtain ⟨idx2, args, t2, heq2, hle2, hwf2⟩ :=
            parseArgumentListWithContext_spec tokens currentParameters
              (show tokens.length - (idx + 1 + 1) < fullFuel tokens by
                unfold fullFuel; omega)
          rw [heq2]
          simp only [Option.bind_eq_bind, Option.some_bind]
          have hrest : ∀ idx3, idx2 ≤ idx3 →
              (∃ idx' t', parseParameterizedRuleBody tokens currentParameters fuel idx3
                  (SymbolTable.addParameterizedCall t2 tk.value
                    ⟨createRange tk, args⟩) = some (idx', t') ∧
                idx ≤ idx' ∧ (WfTable t → WfTable t')) := by
            intro idx3 hge
            obtain ⟨idx', t', heq, hle, hwf⟩ := ih idx3 _ (by omega)
            exact ⟨idx', t', heq, by omega,
              fun hw => hwf (wf_addParameterizedCall (hwf2 hw))⟩
          cases hm : tokens.get? idx2 with
          | none =>
            simp only [Option.bind_eq_bind, Option.some_bind]
            exact hrest idx2 (le_refl idx2)
          | some b =>
            dsimp only
            split_ifs with hb
            · obtain ⟨idx3, heq3, hle3⟩ := skipNamedReference_spec tokens
                (show tokens.length - idx2 < fullFuel tokens by
                  unfold fullFuel; omega)
              rw [heq3]
              simp only [Option.bind_eq_bind, Option.some_bind]
              exact hrest idx3 (by omega)
            · simp only [Option.bind_eq_bind, Option.some_bind]
              exact hrest idx2 (le_refl idx2)
        rw [if_neg h8]
        by_cases hparam : currentParameters.contains tk.value = true
        · rw [if_pos hparam]
          obtain ⟨idx', t', heq, hle, hwf⟩ := ih (idx + 1) t (by omega)
          exact ⟨idx', t', heq, by omega, hwf⟩
        · rw [if_neg hparam]
          have hrest : ∀ idx4, idx + 1 ≤ idx4 →
              (∃ idx' t', parseParameterizedRuleBody tokens currentParameters fuel idx4
                  (t.addReference tk.value ⟨createRange tk⟩) = some (idx', t') ∧
                idx ≤ idx' ∧ (WfTable t → WfTable t')) := by
            intro idx4 hge
            obtain ⟨idx', t', heq, hle, hwf⟩ := ih idx4 _ (by omega)
            exact ⟨idx', t', heq, by omega, fun hw => hwf (wf_addReference hw)⟩
          have hsuffix : ∀ idx3, idx + 1 ≤ idx3 →
              (∃ idx' t',
                (parseParameterizedRuleBody tokens currentParameters fuel
                  (match tokens.get? idx3 with
                   | some sfx =>
                     if sfx.type = TokenType.SPECIAL ∧ isSuffixOp sfx.value then
                       idx3 + 1 else idx3
                   | none => idx3)
                  (t.addReference tk.value ⟨createRange tk⟩)) = some (idx', t') ∧
                idx ≤ idx' ∧ (WfTable t → WfTable t')) := by
            intro idx3 hge
            cases hm2 : tokens.get? idx3 with
            | none => exact hrest idx3 hge
            | some sfx =>
              dsimp only
              split_ifs with hs
              · exact hrest (idx3 + 1) (by omega)
              · exact hrest idx3 hge
          cases hm : tokens.get? (idx + 1) with
          | none =>
            simp only [Option.bind_eq_bind, Option.some_bind]
            exact hsuffix (idx + 1) (le_refl _)
          | some b =>
            dsimp only
            split_ifs with hb
            · obtain ⟨idx3, heq3, hle3⟩ := skipNamedReference_spec tokens
                (show tokens.length - (idx + 1) < fullFuel tokens by
                  unfold fullFuel; omega)
              rw [heq3]
              simp only [Option.bind_eq_bind, Option.some_bind]
              exact hsuffix idx3 (by omega)
            · simp only [Option.bind_eq_bind, Option.some_bind]
              exact hsuffix (idx + 1) (le_refl _)
      rw [if_neg h7]
      by_cases h9 : tk.type = TokenType.CHARACTER
      · rw [if_pos h9]
        cases hm : tokens.get? (idx + 1) with
        | none =>
          dsimp only
          obtain ⟨idx', t', heq, hle, hwf⟩ := ih (idx + 1) t (by omega)
          exact ⟨idx', t', heq, by omega, hwf⟩
        | some sfx =>
          dsimp only
          split_ifs with hs
          · obtain ⟨idx', t', heq, hle, hwf⟩ := ih (idx + 2) t (by omega)
            exact ⟨idx', t', heq, by omega, hwf⟩
          · obtain ⟨idx', t', heq, hle, hwf⟩ := ih (idx + 1) t (by omega)
            exact ⟨idx', t', heq, by omega, hwf⟩
      · rw [if_neg h9]
        obtain ⟨idx', t', heq, hle, hwf⟩ := ih (idx + 1) t (by omega)
        exact ⟨idx', t', heq, by omega, hwf⟩

theorem parseTokenDeclaration_spec (tokens : List Token) (idx : Nat)
    (t : SymbolTable) :
    ∃ idx' t', parseTokenDeclaration tokens idx t = some (idx', t') ∧
      idx + 1 ≤ idx' ∧ (WfTable t → WfTable t') := by
  unfold parseTokenDeclaration
  cases hm : tokens.get? (idx + 1) with
  | none =>
    simp only [hm]
    obtain ⟨idx', t', heq, hle, hwf⟩ := parseTokenDeclarationLoop_spec tokens
      none (fullFuel tokens) (idx + 1) t (by unfold fullFuel; omega)
    exact ⟨idx', t', heq, by omega, hwf⟩
  | some tk =>
    simp only [hm]
    split_ifs with h1
    · obtain ⟨idx', t', heq, hle, hwf⟩ := parseTokenDeclarationLoop_spec tokens
        (some tk.value) (fullFuel tokens) (idx + 1 + 1) t (by unfold fullFuel; omega)
      exact ⟨idx', t', heq, by omega, hwf⟩
    · obtain ⟨idx', t', heq, hle, hwf⟩ := parseTokenDeclarationLoop_spec tokens
        none (fullFuel tokens) (idx + 1) t (by unfold fullFuel; omega)
      exact ⟨idx', t', heq, by omega, hwf⟩

theorem parseTypeDeclaration_spec (tokens : List Token) (idx : Nat)
    (t : SymbolTable) :
    ∃ idx' t', parseTypeDeclaration tokens idx t = some (idx', t') ∧
      idx + 1 ≤ idx' ∧ (WfTable t → WfTable t') := by
  unfold parseTypeDeclaration
  cases hm : tokens.get? (idx + 1) with
  | none =>
    simp only [hm]
    obtain ⟨idx', t', heq, hle, hwf⟩ := parseTypeDeclarationLoop_spec tokens
      none (fullFuel tokens) (idx + 1) t (by unfold fullFuel; omega)
    exact ⟨idx', t', heq, by omega, hwf⟩
  | some tk =>
    simp only [hm]
    split_ifs with h1
    · obtain ⟨idx', t', heq, hle, hwf⟩ := parseTypeDeclarationLoop_spec tokens
        (some tk.value) (fullFuel tokens) (idx + 1 + 1) t (by unfold fullFuel; omega)
      exact ⟨idx', t', heq, by omega, hwf⟩
    · obtain ⟨idx', t', heq, hle, hwf⟩ := parseTypeDeclarationLoop_spec tokens
        none (fullFuel tokens) (idx + 1) t (by unfold fullFuel; omega)
      exact ⟨idx', t', heq, by omega, hwf⟩

theorem parseNtermDeclaration_spec (tokens : List Token) (idx : Nat)
    (t : SymbolTable) :
    ∃ idx' t', parseNtermDeclaration tokens idx t = some (idx', t') ∧
      idx + 1 ≤ idx' ∧ (WfTable t → WfTable t') := by
  unfold parseNtermDeclaration
  cases hm : tokens.get? (idx + 1) with
  | none =>
    simp only [hm]
    obtain ⟨idx', t', heq, hle, hwf⟩ := parseNtermDeclarationLoop_spec tokens
      none (fullFuel tokens) (idx + 1) t (by unfold fullFuel; omega)
    exact ⟨idx', t', heq, by omega, hwf⟩
  | some tk =>
    simp only [hm]
    split_ifs with h1
    · obtain ⟨idx', t', heq, hle, hwf⟩ := parseNtermDeclarationLoop_spec tokens
        (some tk.value) (fullFuel tokens) (idx + 1 + 1) t (by unfold fullFuel; omega)
      exact ⟨idx', t', heq, by omega, hwf⟩
    · obtain ⟨idx', t', heq, hle, hwf⟩ := parseNtermDeclarationLoop_spec tokens
        none (fullFuel tokens) (idx + 1) t (by unfold fullFuel; omega)
      exact ⟨idx', t', heq, by omega, hwf⟩

theorem parseStartDeclaration_spec (tokens : List Token) (idx : Nat)
    (t : SymbolTable) :
    ∃ idx' t', parseStartDeclaration tokens idx t = some (idx', t') ∧
      idx + 1 ≤ idx' ∧ (WfTable t → WfTable t') := by
  unfold parseStartDeclaration
  cases hm : tokens.get? (idx + 1) with
  | none => simp only [hm]; exact ⟨idx + 1, t, rfl, le_refl _, id⟩
  | some tk =>
    simp only [hm]
    split_ifs with h1
    · exact ⟨idx + 1 + 1, _, rfl, by omega, fun hw => wf_addSymbol (by simp) hw⟩
    · exact ⟨idx + 1, t, rfl, le_refl _, id⟩

theorem parseUnionDeclaration_spec (tokens : List Token) (idx : Nat)
    (t : SymbolTable) :
    ∃ idx' t', parseUnionDeclaration tokens idx t = some (idx', t') ∧
      idx + 1 ≤ idx' ∧ (WfTable t → WfTable t') := by
  unfold parseUnionDeclaration
  obtain ⟨idx1, heq1, hle1⟩ := findOpenBraceLoop_spec tokens (fullFuel tokens)
    (idx + 1) (by unfold fullFuel; omega)
  rw [heq1]
  simp only [Option.bind_eq_bind, Option.some_bind]
  obtain ⟨idx2, heq2, hle2, _⟩ := skipCodeBlockLoop_spec tokens (fullFuel tokens)
    0 idx1 (by unfold fullFuel; omega)
  rw [heq2]
  simp only [Option.bind_eq_bind, Option.some_bind]
  exact ⟨idx2, t, rfl, by omega, id⟩

theorem parsePrecedenceDeclaration_spec (tokens : List Token) (idx : Nat)
    (t : SymbolTable) :
    ∃ idx' t', parsePrecedenceDeclaration tokens idx t = some (idx', t') ∧
      idx + 1 ≤ idx' ∧ (WfTable t → WfTable t') := by
  unfold parsePrecedenceDeclaration
  obtain ⟨idx', t', heq, hle, hwf⟩ := parsePrecedenceDeclarationLoop_spec tokens
    (fullFuel tokens) (idx + 1) t (by unfold fullFuel; omega)
  exact ⟨idx', t', heq, by omega, hwf⟩

theorem parseCodeBlockDeclaration_spec (tokens : List Token) (idx : Nat)
    (t : SymbolTable) :
    ∃ idx' t', parseCodeBlockDeclaration tokens idx t = some (idx', t') ∧
      idx + 1 ≤ idx' ∧ (WfTable t → WfTable t') := by
  unfold parseCodeBlockDeclaration
  obtain ⟨idx1, heq1, hle1⟩ := findOpenBraceLoop_spec tokens (fullFuel tokens)
    (idx + 1) (by unfold fullFuel; omega)
  rw [heq1]
  simp only [Option.bind_eq_bind, Option.some_bind]
  obtain ⟨idx2, heq2, hle2, _⟩ := skipCodeBlock_spec tokens
    (show tokens.length - idx1 < fullFuel tokens by unfold fullFuel; omega)
  rw [heq2]
  simp only [Option.bind_eq_bind, Option.some_bind]
  exact ⟨idx2, t, rfl, by omega, id⟩

theorem parseParameterizedRuleDeclarationBody_spec (tokens : List Token)
    (isP : Bool) (params : List Str) (idx5 : Nat) (t2 : SymbolTable) :
    ∃ idx' t', parseParameterizedRuleDeclarationBody tokens isP params idx5 t2 =
      some (idx', t') ∧ idx5 ≤ idx' ∧ (WfTable t2 → WfTable t') := by
  unfold parseParameterizedRuleDeclarationBody
  cases hcolon : tokens.get? idx5 with
  | none => exact ⟨idx5, t2, rfl, le_refl _, id⟩
  | some ct =>
    dsimp only
    by_cases hc : ct.type = TokenType.SPECIAL ∧ ct.value = ":".data
    · rw [if_pos hc]
      cases isP with
      | true =>
        rw [if_pos rfl]
        obtain ⟨idx', t', heq, hle, hwf⟩ :=
          parseParameterizedRuleBody_spec tokens params (fullFuel tokens)
            (idx5 + 1) t2 (by unfold fullFuel; omega)
        exact ⟨idx', t', heq, by omega, hwf⟩
      | false =>
        rw [if_neg (by simp)]
        obtain ⟨idx', t', heq, hle, hwf⟩ := parseRuleBody_spec tokens
          (fullFuel tokens) (idx5 + 1) t2 (by unfold fullFuel; omega)
        exact ⟨idx', t', heq, by omega, hwf⟩
    · rw [if_neg hc]
      exact ⟨idx5, t2, rfl, le_refl _, id⟩

theorem parseParameterizedRuleDeclarationTag_spec (tokens : List Token)
    (nameTok : Token) (isP : Bool) (params : List Str) (idx4 : Nat)
    (t1 : SymbolTable) :
    ∃ idx' t', parseParameterizedRuleDeclarationTag tokens nameTok isP params
      idx4 t1 = some (idx', t') ∧ idx4 ≤ idx' ∧ (WfTable t1 → WfTable t') := by
  unfold parseParameterizedRuleDeclarationTag
  cases hm : tokens.get? idx4 with
  | none =>
    obtain ⟨idx', t', heq, hle, hwf⟩ :=
      parseParameterizedRuleDeclarationBody_spec tokens isP params idx4 t1
    exact ⟨idx', t', heq, hle, hwf⟩
  | some tk =>
    dsimp only
    by_cases ht : tk.type = TokenType.TYPE_TAG
    · rw [if_pos ht]
      obtain ⟨idx', t', heq, hle, hwf⟩ :=
        parseParameterizedRuleDeclarationBody_spec tokens isP params (idx4 + 1)
          (if isP then t1.setParamTypeTag nameTok.value tk.value
           else t1.setPlainTypeTag nameTok.value tk.value)
      refine ⟨idx', t', heq, by omega, fun hw => hwf ?_⟩
      cases isP with
      | true => exact wf_setParamTypeTag hw
      | false => exact wf_setPlainTypeTag hw
    · rw [if_neg ht]
      obtain ⟨idx', t', heq, hle, hwf⟩ :=
        parseParameterizedRuleDeclarationBody_spec tokens isP params idx4 t1
      exact ⟨idx', t', heq, hle, hwf⟩

theorem parseParameterizedRuleDeclaration_spec (tokens : List Token) (idx : Nat)
    (t : SymbolTable) :
    ∃ idx' t', parseParameterizedRuleDeclaration tokens idx t = some (idx', t') ∧
      idx + 1 ≤ idx' ∧ (WfTable t → WfTable t') := by
  have hmain : ∀ idx2 : Nat, idx + 1 ≤ idx2 →
      ∃ idx' t',
        (match tokens.get? idx2 with
         | some nameTok =>
           if nameTok.type = TokenType.IDENTIFIER then
             let nameRange := createRange nameTok
             let idx3 := idx2 + 1
             match (match tokens.get? idx3 with
                    | some tk =>
                      if tk.type = TokenType.SPECIAL ∧ tk.value = "(".data then
                        (parseParamListLoop tokens (fullFuel tokens) (idx3 + 1) []).map
                          (fun pi : List Str × Nat => (true, pi.1, pi.2))
                      else some (false, ([] : List Str), idx3)
                    | none => some (false, ([] : List Str), idx3)) with
             | none => none
             | some (isParameterized, params, idx4) =>
               let t1 := if isParameterized then
                   (t.addParameterizedRuleDefinition nameTok.value
                     ⟨nameRange, nameRange⟩ params).1
                 else (t.addSymbol nameTok.value .Rule (some ⟨nameRange, nameRange⟩)).1
               parseParameterizedRuleDeclarationTag tokens nameTok isParameterized
                 params idx4 t1
           else some (idx2, t)
         | none => some (idx2, t)) = some (idx', t') ∧
        idx + 1 ≤ idx' ∧ (WfTable t → WfTable t') := by
    intro idx2 hge2
    cases hname : tokens.get? idx2 with
    | none => exact ⟨idx2, t, rfl, hge2, id⟩
    | some nameTok =>
      dsimp only
      by_cases hident : nameTok.type = TokenType.IDENTIFIER
      · rw [if_pos hident]
        cases hplist : tokens.get? (idx2 + 1) with
        | none =>
          dsimp only
          obtain ⟨idx', t', heq, hle, hwf⟩ :=
            parseParameterizedRuleDeclarationTag_spec tokens nameTok false []
              (idx2 + 1) ((t.addSymbol nameTok.value .Rule
                (some ⟨createRange nameTok, createRange nameTok⟩)).1)
          exact ⟨idx', t', heq, by omega,
            fun hw => hwf (wf_addSymbol (by simp) hw)⟩
        | some tk =>
          dsimp only
          by_cases hop : tk.type = TokenType.SPECIAL ∧ tk.value = "(".data
          · rw [if_pos hop]
            obtain ⟨ps, idxP, heqP, hleP⟩ := parseParamListLoop_spec tokens
              (fullFuel tokens) (idx2 + 1 + 1) [] (by unfold fullFuel; omega)
            rw [heqP]
            simp only [Option.map_some']
            obtain ⟨idx', t', heq, hle, hwf⟩ :=
              parseParameterizedRuleDeclarationTag_spec tokens nameTok true ps
                idxP ((t.addParameterizedRuleDefinition nameTok.value
                  ⟨createRange nameTok, createRange nameTok⟩ ps).1)
            exact ⟨idx', t', heq, by omega,
              fun hw => hwf (wf_addParameterizedRuleDefinition hw)⟩
          · rw [if_neg hop]
            dsimp only
            obtain ⟨idx', t', heq, hle, hwf⟩ :=
              parseParameterizedRuleDeclarationTag_spec tokens nameTok false []
                (idx2 + 1) ((t.addSymbol nameTok.value .Rule
                  (some ⟨createRange nameTok, createRange nameTok⟩)).1)
            exact ⟨idx', t', heq, by omega,
              fun hw => hwf (wf_addSymbol (by simp) hw)⟩
      · rw [if_neg hident]
        exact ⟨idx2, t, rfl, hge2, id⟩
  unfold parseParameterizedRuleDeclaration
  cases hinl : tokens.get? (idx + 1) with
  | none =>
    -- with no token after %rule, the name lookup (at the same index) fails too
    simp only [hinl]
    exact ⟨idx + 1, t, rfl, le_refl _, id⟩
  | some tk =>
    simp only [hinl]
    split_ifs with h1
    · exact hmain (idx + 1 + 1) (by omega)
    · exact hmain (idx + 1) (le_refl _)

theorem parseRule_spec (tokens : List Token) {idx : Nat} {tk : Token}
    (t : SymbolTable) (htk : tokens.get? idx = some tk) :
    ∃ idx' t', parseRule tokens idx t = some (idx', t') ∧
      idx + 1 ≤ idx' ∧ (WfTable t → WfTable t') := by
  unfold parseRule
  simp only [htk]
  by_cases h1 : tk.type = TokenType.DIRECTIVE ∧ tk.value = "%rule".data
  · rw [if_pos h1]
    exact parseParameterizedRuleDeclaration_spec tokens idx t
  rw [if_neg h1]
  by_cases h2 : tk.type = TokenType.IDENTIFIER
  · rw [if_pos h2]
    have hcolon : ∀ nextIndex : Nat, idx + 1 ≤ nextIndex →
        ∃ idx' t',
          (match tokens.get? nextIndex with
           | some ct =>
             if ct.type = TokenType.SPECIAL ∧ ct.value = ":".data then
               parseRuleBody tokens (fullFuel tokens) (nextIndex + 1)
                 ((t.addSymbol tk.value .Rule
                   (some ⟨createRange tk, createRange tk⟩)).1)
             else some (idx + 1, t)
           | none => some (idx + 1, t)) = some (idx', t') ∧
          idx + 1 ≤ idx' ∧ (WfTable t → WfTable t') := by
      intro nextIndex hge
      cases hm : tokens.get? nextIndex with
      | none => exact ⟨idx + 1, t, rfl, le_refl _, id⟩
      | some ct =>
        dsimp only
        by_cases hc : ct.type = TokenType.SPECIAL ∧ ct.value = ":".data
        · rw [if_pos hc]
          obtain ⟨idx', t', heq, hle, hwf⟩ := parseRuleBody_spec tokens
            (fullFuel tokens) (nextIndex + 1) _ (by unfold fullFuel; omega)
          exact ⟨idx', t', heq, by omega,
            fun hw => hwf (wf_addSymbol (by simp) hw)⟩
        · rw [if_neg hc]
          exact ⟨idx + 1, t, rfl, le_refl _, id⟩
    cases hb : tokens.get? (idx + 1) with
    | none =>
      simp only [Option.bind_eq_bind, Option.some_bind]
      exact hcolon (idx + 1) (le_refl _)
    | some b =>
      dsimp only
      by_cases hbr : b.type = TokenType.SPECIAL ∧ b.value = "[".data
      · rw [if_pos hbr]
        obtain ⟨nextIndex, heqN, hleN⟩ := ruleNameBracketScan_spec tokens
          (fullFuel tokens) (idx + 2) (by unfold fullFuel; omega)
        rw [heqN]
        simp only [Option.bind_eq_bind, Option.some_bind]
        exact hcolon nextIndex (by omega)
      · rw [if_neg hbr]
        simp only [Option.bind_eq_bind, Option.some_bind]
        exact hcolon (idx + 1) (le_refl _)
  · rw [if_neg h2]
    exact ⟨idx + 1, t, rfl, le_refl _, id⟩

theorem parseDeclaration_spec (tokens : List Token) {idx : Nat} {tk : Token}
    (t : SymbolTable) (htk : tokens.get? idx = some tk) :
    ∃ idx' t', parseDeclaration tokens idx t = some (idx', t') ∧
      idx + 1 ≤ idx' ∧ (WfTable t → WfTable t') := by
  unfold parseDeclaration
  simp only [htk]
  by_cases h1 : tk.type = TokenType.DIRECTIVE
  · rw [if_pos h1]
    by_cases d1 : tk.value = "%token".data
    · rw [if_pos d1]; exact parseTokenDeclaration_spec tokens idx t
    rw [if_neg d1]
    by_cases d2 : tk.value = "%type".data
    · rw [if_pos d2]; exact parseTypeDeclaration_spec tokens idx t
    rw [if_neg d2]
    by_cases d3 : tk.value = "%nterm".data
    · rw [if_pos d3]; exact parseNtermDeclaration_spec tokens idx t
    rw [if_neg d3]
    by_cases d4 : tk.value = "%rule".data
    · rw [if_pos d4]; exact parseParameterizedRuleDeclaration_spec tokens idx t
    rw [if_neg d4]
    by_cases d5 : tk.value = "%start".data
    · rw [if_pos d5]; exact parseStartDeclaration_spec tokens idx t
    rw [if_neg d5]
    by_cases d6 : tk.value = "%union".data
    · rw [if_pos d6]; exact parseUnionDeclaration_spec tokens idx t
    rw [if_neg d6]
    by_cases d7 : tk.value = "%left".data ∨ tk.value = "%right".data ∨
        tk.value = "%nonassoc".data ∨ tk.value = "%precedence".data
    · rw [if_pos d7]; exact parsePrecedenceDeclaration_spec tokens idx t
    rw [if_neg d7]
    by_cases d8 : tk.value = "%destructor".data ∨ tk.value = "%printer".data
    · rw [if_pos d8]; exact parseCodeBlockDeclaration_spec tokens idx t
    · rw [if_neg d8]
      obtain ⟨idx', heq, hle⟩ := skipToEndOfLine_spec tokens
        (show tokens.length - (idx + 1) < fullFuel tokens by unfold fullFuel; omega)
      rw [heq]
      exact ⟨idx', t, rfl, by omega, id⟩
  rw [if_neg h1]
  by_cases h2 : tk.type = TokenType.PROLOGUE_START
  · rw [if_pos h2]
    obtain ⟨idx', heq, hle⟩ := skipPrologue_spec tokens
      (show tokens.length - idx < fullFuel tokens by
        unfold fullFuel; omega)
    rw [heq]
    exact ⟨idx', t, rfl, by omega, id⟩
  · rw [if_neg h2]
    exact ⟨idx + 1, t, rfl, le_refl _, id⟩

theorem parseGrammarLoop_succ (tokens : List Token) (fuel : Nat)
    (sec : GrammarSection) (idx : Nat) (t : SymbolTable) :
    parseGrammarLoop tokens (fuel + 1) sec idx t =
    match tokens.get? idx with
    | none => some (idx, t)
    | some tk =>
      if tk.type = TokenType.SEPARATOR ∧ tk.value = "%%".data then
        parseGrammarLoop tokens fuel (nextSection sec) (idx + 1) t
      else
        match sec with
        | .declarations => do
          let (idx', t') ← parseDeclaration tokens idx t
          parseGrammarLoop tokens fuel .declarations idx' t'
        | .rules => do
          let (idx', t') ← parseRule tokens idx t
          parseGrammarLoop tokens fuel .rules idx' t'
        | .epilogue => parseGrammarLoop tokens fuel .epilogue (idx + 1) t := rfl

theorem parseGrammarLoop_spec (tokens : List Token) :
    ∀ fuel sec idx t, tokens.length - idx < fuel →
    ∃ idx' t', parseGrammarLoop tokens fuel sec idx t = some (idx', t') ∧
      (WfTable t → WfTable t') := by
  intro fuel
  induction fuel with
  | zero => intro sec idx t h; omega
  | succ fuel ih =>
    intro sec idx t h
    rw [parseGrammarLoop_succ]
    cases htk : tokens.get? idx with
    | none => exact ⟨idx, t, rfl, id⟩
    | some tk =>
      have hlt := get?_some_lt htk
      dsimp only
      by_cases h1 : tk.type = TokenType.SEPARATOR ∧ tk.value = "%%".data
      · rw [if_pos h1]
        exact ih (nextSection sec) (idx + 1) t (by omega)
      rw [if_neg h1]
      cases sec with
      | declarations =>
        obtain ⟨idx1, t1, heq1, hle1, hwf1⟩ := parseDeclaration_spec tokens t htk
        rw [heq1]
        simp only [Option.bind_eq_bind, Option.some_bind]
        obtain ⟨idx', t', heq, hwf⟩ := ih .declarations idx1 t1 (by omega)
        exact ⟨idx', t', heq, fun hw => hwf (hwf1 hw)⟩
      | rules =>
        obtain ⟨idx1, t1, heq1, hle1, hwf1⟩ := parseRule_spec tokens t htk
        rw [heq1]
        simp only [Option.bind_eq_bind, Option.some_bind]
        obtain ⟨idx', t', heq, hwf⟩ := ih .rules idx1 t1 (by omega)
        exact ⟨idx', t', heq, fun hw => hwf (hwf1 hw)⟩
      | epilogue => exact ih .epilogue (idx + 1) t (by omega)

/-- The parser stage always terminates, and its table satisfies the
invariant. -/
theorem parseGrammar_spec (tokens : List Token) :
    ∃ idx' t', parseGrammar tokens SymbolTable.empty = some (idx', t') ∧
      WfTable t' := by
  obtain ⟨idx', t', heq, hwf⟩ := parseGrammarLoop_spec tokens (fullFuel tokens)
    .declarations 0 SymbolTable.empty (by unfold fullFuel; omega)
  exact ⟨idx', t', heq, hwf wf_empty⟩

/-- `parseText` always produces a table, and that table satisfies the
invariant. -/
theorem parseText_spec (text : Str) :
    ∃ t, parseText text = some t ∧ WfTable t := by
  unfold parseText
  have hts := tokenize_isSome text
  cases hT : tokenize text with
  | none => rw [hT] at hts; exact absurd hts (by simp)
  | some tokens =>
    simp only [Option.bind_eq_bind, Option.some_bind]
    obtain ⟨idx', t', heq, hwf⟩ := parseGrammar_spec tokens
    rw [heq]
    exact ⟨t', by simp, hwf⟩

/-- `analyze` always terminates with a table and diagnostics; the table
satisfies the invariant and the diagnostics are the validator's. -/
theorem analyze_spec (text : Str) :
    ∃ t d, analyze text = some (t, d) ∧ WfTable t ∧ d = validateSymbols t := by
  unfold analyze
  obtain ⟨t, heq, hwf⟩ := parseText_spec text
  rw [heq]
  exact ⟨t, validateSymbols t, rfl, hwf, rfl⟩

/-! ## Validator lemmas -/

theorem validateSymbols_eq (t : SymbolTable) :
    validateSymbols t =
    t.getAllSymbols.flatMap
      (symbolDiags (collectKnownParameters t.getAllSymbols)) := rfl

theorem undefinedDiag_inj {n n' : Str} {r r' : DocRange}
    (h : undefinedDiag n r = undefinedDiag n' r') : n = n' ∧ r = r' := by
  unfold undefinedDiag at h
  simp only [Diagnostic.mk.injEq] at h
  obtain ⟨-, hr, hmsg, -⟩ := h
  refine ⟨?_, hr⟩
  exact List.append_cancel_left (List.append_cancel_right hmsg)

theorem undefinedDiag_ne_unusedDiag {n n' : Str} {r r' : DocRange} :
    undefinedDiag n r ≠ unusedDiag n' r' := by
  unfold undefinedDiag unusedDiag
  simp [Diagnostic.mk.injEq]

theorem mem_unusedCheck {s : Symbol} {d : Diagnostic}
    (h : d ∈ unusedCheck s) : ∃ n r, d = unusedDiag n r := by
  unfold unusedCheck at h
  split at h
  · split_ifs at h with hcond
    · simp only [List.mem_singleton] at h
      exact ⟨_, _, h⟩
    · simp at h
  · simp at h

/-- No undefined-symbol warning is ever emitted for an excluded name. -/
theorem not_mem_validate_of_excluded {t : SymbolTable} {name : Str}
    {rr : DocRange} (hex : excludedName t name = true) :
    undefinedDiag name rr ∉ validateSymbols t := by
  intro hmem
  rw [validateSymbols_eq] at hmem
  obtain ⟨s, hs, hd⟩ := List.mem_flatMap.mp hmem
  unfold symbolDiags at hd
  split_ifs at hd with hskip hundef hkp hchar hguard
  · simp at hd
  · simp at hd
  · simp at hd
  · rcases List.mem_append.mp hd with hwarn | hunused
    · obtain ⟨r, hr, heqd⟩ := List.mem_map.mp hwarn
      obtain ⟨hn, -⟩ := undefinedDiag_inj heqd.symm
      subst hn
      unfold excludedName at hex
      simp only [Bool.or_eq_true] at hex
      obtain ⟨hb, hl, hc⟩ := hguard
      rcases hex with ((((hx | hx) | hx) | hx) | hx)
      · exact absurd hx (by simpa using hkp)
      · exact absurd hx (by simpa using hchar)
      · exact absurd hx (by simpa using hb)
      · exact absurd hx (by simpa using hl)
      · exact absurd hx (by simpa using hc)
    · obtain ⟨n2, r2, heqd⟩ := mem_unusedCheck hunused
      exact absurd heqd undefinedDiag_ne_unusedDiag
  · simp only [List.nil_append] at hd
    obtain ⟨n2, r2, heqd⟩ := mem_unusedCheck hd
    exact absurd heqd undefinedDiag_ne_unusedDiag
  · obtain ⟨n2, r2, heqd⟩ := mem_unusedCheck hd
    exact absurd heqd undefinedDiag_ne_unusedDiag

/-- Every reference of a referenced, undefined, non-excluded entity receives
an undefined-symbol warning (on tables satisfying the parser invariant). -/
theorem mem_validate_of_not_excluded {t : SymbolTable} {s : Symbol}
    (hwf : WfTable t) (hs : s ∈ t.getAllSymbols)
    (hrefs : s.references ≠ []) (hdef : s.definition = none)
    (hex : excludedName t s.name = false) :
    ∀ r ∈ s.references, undefinedDiag s.name r.range ∈ validateSymbols t := by
  intro r hr
  rw [validateSymbols_eq]
  apply List.mem_flatMap.mpr
  refine ⟨s, hs, ?_⟩
  have hnotPR : ¬ (s.type = SymbolType.ParameterizedRule ∧
      s.isParameterized = false ∧ s.definition = none) := by
    rcases List.mem_append.mp hs with hmem | hmem
    · exact absurd (hwf.1 s hmem).2 hrefs
    · intro hcon
      exact absurd hcon.1 (hwf.2 s hmem)
  unfold excludedName at hex
  simp only [Bool.or_eq_false_iff] at hex
  obtain ⟨⟨⟨⟨hkp, hchar⟩, hb⟩, hl⟩, hc⟩ := hex
  unfold symbolDiags
  rw [if_neg hnotPR, if_pos ⟨hrefs, hdef⟩,
    if_neg (by simp only [hkp]; simp),
    if_neg (by simp only [hchar]; simp),
    if_pos (by simp only [hb, hl, hc]; simp)]
  apply List.mem_append.mpr
  exact Or.inl (List.mem_map.mpr ⟨r, hr, rfl⟩)

/-! ## Pointwise behaviour of the store operations -/

theorem find?_setNamed_same {l : List Symbol} {name : Str} {f : Symbol → Symbol}
    {s : Symbol} (h : l.find? (fun x => x.name = name) = some s)
    (hf : (f s).name = name) :
    (setNamed l name f).find? (fun x => x.name = name) = some (f s) := by
  induction l with
  | nil => simp [List.find?] at h
  | cons a l ih =>
    rw [setNamed]
    by_cases ha : a.name = name
    · rw [if_pos ha]
      rw [List.find?_cons_of_pos _ (by simp [ha])] at h
      obtain rfl : a = s := by simpa using h
      rw [List.find?_cons_of_pos _ (by simp [hf])]
    · rw [if_neg ha]
      rw [List.find?_cons_of_neg _ (by simp [ha])] at h
      rw [List.find?_cons_of_neg _ (by simp [ha])]
      exact ih h

theorem find?_setNamed_ne {l : List Symbol} {name name' : Str}
    {f : Symbol → Symbol} (hf : ∀ s, (f s).name = s.name)
    (hne : ¬ name' = name) :
    (setNamed l name f).find? (fun x => x.name = name') =
    l.find? (fun x => x.name = name') := by
  induction l with
  | nil => simp [setNamed]
  | cons a l ih =>
    rw [setNamed]
    by_cases ha : a.name = name
    · rw [if_pos ha]
      by_cases ha' : a.name = name'
      · exact absurd (ha'.symm.trans ha) hne
      · rw [List.find?_cons_of_neg _ (by simp [hf, ha']),
          List.find?_cons_of_neg _ (by simp [ha'])]
    · rw [if_neg ha]
      by_cases ha' : a.name = name'
      · rw [List.find?_cons_of_pos _ (by simp [ha']),
          List.find?_cons_of_pos _ (by simp [ha'])]
      · rw [List.find?_cons_of_neg _ (by simp [ha']),
          List.find?_cons_of_neg _ (by simp [ha'])]
        exact ih

theorem find?_append_one {l : List Symbol} {x : Symbol} {p : Symbol → Bool} :
    (l ++ [x]).find? p =
    (match l.find? p with
     | some s => some s
     | none => if p x then some x else none) := by
  induction l with
  | nil =>
    simp only [List.nil_append, List.find?]
    cases hp : p x <;> simp [List.find?, hp]
  | cons a l ih =>
    by_cases ha : p a = true
    · rw [List.cons_append, List.find?_cons_of_pos _ ha,
        List.find?_cons_of_pos _ ha]
    · rw [List.cons_append, List.find?_cons_of_neg _ (by simp [ha]),
        List.find?_cons_of_neg _ (by simp [ha])]
      exact ih

/-- `addSymbol` on an absent name creates a fresh entity. -/
theorem plainLookup_addSymbol_absent {t : SymbolTable} {name : Str}
    {ty : SymbolType} {defn : Option SymbolDefinition}
    (h : t.plainLookup name = none) :
    (t.addSymbol name ty defn).1.plainLookup name =
    some ⟨name, ty, defn, [], [], none, none, false⟩ := by
  unfold SymbolTable.addSymbol
  rw [h]
  unfold SymbolTable.plainLookup at h ⊢
  dsimp only
  rw [find?_append_one, h]
  simp

/-- `addSymbol` with a definition on an entity that has none attaches the
definition and type in place, keeping every other field. -/
theorem plainLookup_addSymbol_merge {t : SymbolTable} {name : Str}
    {ty : SymbolType} {d : SymbolDefinition} {s : Symbol}
    (h : t.plainLookup name = some s) (hdef : s.definition = none) :
    (t.addSymbol name ty (some d)).1.plainLookup name =
    some { s with definition := some d, type := ty } := by
  have hname : s.name = name := by
    have := List.find?_some h
    simpa using this
  unfold SymbolTable.addSymbol
  rw [h]
  dsimp only
  rw [if_pos (by simp [hdef])]
  unfold SymbolTable.plainLookup at h ⊢
  dsimp only
  exact find?_setNamed_same h (by simpa using hname)

/-- `addSymbol` on an entity that already has a definition changes nothing
at all (and hands back the stored entity). -/
theorem addSymbol_defined_frame {t : SymbolTable} {name : Str}
    {ty : SymbolType} {d' : Option SymbolDefinition} {s : Symbol}
    {d : SymbolDefinition} (h : t.plainLookup name = some s)
    (hdef : s.definition = some d) :
    t.addSymbol name ty d' = (t, s) := by
  unfold SymbolTable.addSymbol
  rw [h]
  dsimp only
  rw [if_neg (by simp [hdef])]

/-- `addReference` appends to an existing entity's reference list, changing
nothing else about it. -/
theorem plainLookup_addReference_present {t : SymbolTable} {name : Str}
    {r : SymbolReference} {s : Symbol} (h : t.plainLookup name = some s) :
    (t.addReference name r).plainLookup name =
    some { s with references := s.references ++ [r] } := by
  have hname : s.name = name := by
    have := List.find?_some h
    simpa using this
  unfold SymbolTable.addReference
  rw [h]
  unfold SymbolTable.plainLookup at h ⊢
  dsimp only
  exact find?_setNamed_same h (by simpa using hname)

/-- `addReference` on an absent name creates a definition-less nonterminal
carrying just that reference. -/
theorem plainLookup_addReference_absent {t : SymbolTable} {name : Str}
    {r : SymbolReference} (h : t.plainLookup name = none) :
    (t.addReference name r).plainLookup name =
    some ⟨name, .Nonterminal, none, [r], [], none, none, false⟩ := by
  unfold SymbolTable.addReference
  rw [h]
  unfold SymbolTable.plainLookup at h ⊢
  dsimp only
  rw [find?_append_one, h]
  simp

/-- `addReference` to one name leaves every other name's entry unchanged. -/
theorem plainLookup_addReference_ne {t : SymbolTable} {n' name : Str}
    {r : SymbolReference} (hne : ¬ name = n') :
    (t.addReference n' r).plainLookup name = t.plainLookup name := by
  unfold SymbolTable.addReference
  cases h : t.plainLookup n' with
  | some s =>
    unfold SymbolTable.plainLookup
    dsimp only
    exact find?_setNamed_ne (fun s => rfl) hne
  | none =>
    unfold SymbolTable.plainLookup
    dsimp only
    rw [find?_append_one]
    cases h2 : t.symbols.find? (fun x => x.name = name) with
    | some s => rfl
    | none =>
      have hne' : ¬ n' = name := fun hx => hne hx.symm
      simp [hne']

/-- `addParameterizedRuleDefinition` on an existing entity overwrites its
definition, kind, parameter list and flag in place. -/
theorem paramLookup_addPRD_present {t : SymbolTable} {name : Str}
    {d : SymbolDefinition} {ps : List Str} {s : Symbol}
    (h : t.paramLookup name = some s) :
    (t.addParameterizedRuleDefinition name d ps).1.paramLookup name =
    some { s with definition := some d, type := .ParameterizedRule,
                  parameters := some ps, isParameterized := true } := by
  have hname : s.name = name := by
    have := List.find?_some h
    simpa using this
  unfold SymbolTable.addParameterizedRuleDefinition
  rw [h]
  unfold SymbolTable.paramLookup at h ⊢
  dsimp only
  exact find?_setNamed_same h (by simpa using hname)

/-- `addParameterizedRuleDefinition` on an absent name creates the entity. -/
theorem paramLookup_addPRD_absent {t : SymbolTable} {name : Str}
    {d : SymbolDefinition} {ps : List Str} (h : t.paramLookup name = none) :
    (t.addParameterizedRuleDefinition name d ps).1.paramLookup name =
    some ⟨name, .ParameterizedRule, some d, [], [], some ps, none, true⟩ := by
  unfold SymbolTable.addParameterizedRuleDefinition
  rw [h]
  unfold SymbolTable.paramLookup at h ⊢
  dsimp only
  rw [find?_append_one, h]
  simp

/-- Identifier arguments that are known formal parameters never change the
plain store entry of any known-parameter name: the context-aware argument
parser adds references only for identifiers outside the parameter set. -/
theorem parseArgumentListWithContextLoop_param_preserves (tokens : List Token)
    (knownParameters : List Str) {name : Str}
    (hname : knownParameters.contains name = true) :
    ∀ fuel (parenDepth : Int) args idx t idx' args' t',
    parseArgumentListWithContextLoop tokens knownParameters fuel
      parenDepth args idx t = some (idx', args', t') →
    t'.plainLookup name = t.plainLookup name := by
  intro fuel
  induction fuel with
  | zero => intro d args idx t idx' args' t' heq; exact absurd heq (by simp [parseArgumentListWithContextLoop])
  | succ fuel ih =>
    intro d args idx t idx' args' t' heq
    rw [parseArgumentListWithContextLoop_succ] at heq
    by_cases hd : d > 0
    · rw [if_pos hd] at heq
      cases htk : tokens.get? idx with
      | none =>
        rw [htk] at heq
        obtain ⟨-, -, rfl⟩ : idx = idx' ∧ args = args' ∧ t = t' := by
          simpa using heq
        rfl
      | some tk =>
        rw [htk] at heq
        dsimp only at heq
        split_ifs at heq with h1 h2 h3 h4 h5 h6 h7
        · exact ih _ _ _ _ _ _ _ heq
        · obtain ⟨-, -, rfl⟩ : idx + 1 = idx' ∧ args = args' ∧ t = t' := by
            simpa using heq
          rfl
        · exact ih _ _ _ _ _ _ _ heq
        · exact ih _ _ _ _ _ _ _ heq
        · exact ih _ _ _ _ _ _ _ heq
        · -- identifier argument outside the parameter set: a reference to it
          -- cannot touch the entry of a known-parameter name
          rw [ih _ _ _ _ _ _ _ heq]
          apply plainLookup_addReference_ne
          intro hx
          exact h6 (hx ▸ hname)
        · -- identifier argument that IS a known parameter: no reference
          exact ih _ _ _ _ _ _ _ heq
        · exact ih _ _ _ _ _ _ _ heq
    · rw [if_neg hd] at heq
      obtain ⟨-, -, rfl⟩ : idx = idx' ∧ args = args' ∧ t = t' := by
        simpa using heq
      rfl

/-! ## Position-lookup lemmas -/

theorem drop_eq_cons_of_get? {l : Str} {n : Nat} {c : Char}
    (h : l.get? n = some c) : l.drop n = c :: l.drop (n + 1) := by
  have hn : n < l.length := (List.get?_eq_some.mp h).1
  rw [List.drop_eq_getElem_cons hn]
  congr 1
  have h2 := List.get?_eq_get hn
  rw [h] at h2
  simpa using h2.symm

theorem foldl_considerHit_ge (doc : Str) (offset : Nat) (sym : Symbol)
    (prio : Int) :
    ∀ (rs : List SymbolReference) (b : Option Symbol × Int), prio ≤ b.2 →
    rs.foldl (fun b ref => considerHit doc offset ref.range prio sym b) b = b := by
  intro rs
  induction rs with
  | nil => intro b hb; rfl
  | cons r rs ih =>
    intro b hb
    rw [List.foldl_cons]
    have hstep : considerHit doc offset r.range prio sym b = b := by
      unfold considerHit
      rw [if_neg]
      intro hcon
      exact absurd hcon.2.2 (not_lt.mpr hb)
    rw [hstep]
    exact ih b hb

/-! ## Claims -/

/-- C1: Forward-reference merge — references recorded before a definition
are kept: starting from a table without the name, two `addReference` calls
accumulate both references on a definition-less nonterminal, and a
subsequent `addSymbol` with a definition attaches the definition and kind in
place without discarding either recorded reference. -/
theorem c1_forward_reference_merge (t0 : SymbolTable) (name : Str)
    (r1 r2 : SymbolReference) (k : SymbolType) (d : SymbolDefinition)
    (h0 : t0.plainLookup name = none) :
    ((t0.addReference name r1).addReference name r2).plainLookup name =
      some ⟨name, .Nonterminal, none, [r1, r2], [], none, none, false⟩ ∧
    ((((t0.addReference name r1).addReference name r2).addSymbol name k
        (some d)).1).plainLookup name =
      some ⟨name, k, some d, [r1, r2], [], none, none, false⟩ := by
  have h1 := @plainLookup_addReference_absent t0 name r1 h0
  have h2 := @plainLookup_addReference_present _ name r2 _ h1
  refine ⟨h2, ?_⟩
  exact @plainLookup_addSymbol_merge _ name k d _ h2 rfl

/-- C1 witness: the merge at a concrete name, references and definition. -/
theorem c1_forward_reference_merge_witness :
    SymbolTable.empty.plainLookup "x".data = none ∧
    (((SymbolTable.empty.addReference "x".data ⟨⟨⟨0, 0⟩, ⟨0, 1⟩⟩⟩).addReference
        "x".data ⟨⟨⟨1, 0⟩, ⟨1, 1⟩⟩⟩).plainLookup "x".data =
      some ⟨"x".data, .Nonterminal, none,
        [⟨⟨⟨0, 0⟩, ⟨0, 1⟩⟩⟩, ⟨⟨⟨1, 0⟩, ⟨1, 1⟩⟩⟩], [], none, none, false⟩ ∧
    ((((SymbolTable.empty.addReference "x".data ⟨⟨⟨0, 0⟩, ⟨0, 1⟩⟩⟩).addReference
        "x".data ⟨⟨⟨1, 0⟩, ⟨1, 1⟩⟩⟩).addSymbol "x".data .Token
        (some ⟨⟨⟨2, 0⟩, ⟨2, 1⟩⟩, ⟨⟨2, 0⟩, ⟨2, 1⟩⟩⟩)).1).plainLookup "x".data =
      some ⟨"x".data, .Token, some ⟨⟨⟨2, 0⟩, ⟨2, 1⟩⟩, ⟨⟨2, 0⟩, ⟨2, 1⟩⟩⟩,
        [⟨⟨⟨0, 0⟩, ⟨0, 1⟩⟩⟩, ⟨⟨⟨1, 0⟩, ⟨1, 1⟩⟩⟩], [], none, none, false⟩) :=
  ⟨by decide,
    c1_forward_reference_merge SymbolTable.empty "x".data ⟨⟨⟨0, 0⟩, ⟨0, 1⟩⟩⟩
      ⟨⟨⟨1, 0⟩, ⟨1, 1⟩⟩⟩ .Token ⟨⟨⟨2, 0⟩, ⟨2, 1⟩⟩, ⟨⟨2, 0⟩, ⟨2, 1⟩⟩⟩ (by decide)⟩

/-- C2 counterexample: the definition field is NOT set at most once in the
parameterized namespace.  A one-line pass defines the parameterized rule `a`
at line 0 with parameter `X`; adding a second `%rule a(Y)` line makes the
same pass end with the definition REPLACED by the line-1 occurrence and the
parameters replaced by `["Y"]`. -/
theorem c2_definition_replaced_counterexample :
    ((analyze "%rule a(X): x ;\n".data).map
      (fun r => (r.1.paramLookup "a".data).map
        (fun s => (s.definition, s.parameters)))) =
      some (some (some ⟨⟨⟨0, 6⟩, ⟨0, 7⟩⟩, ⟨⟨0, 6⟩, ⟨0, 7⟩⟩⟩, some ["X".data])) ∧
    ((analyze "%rule a(X): x ;\n%rule a(Y): y ;\n".data).map
      (fun r => (r.1.paramLookup "a".data).map
        (fun s => (s.definition, s.parameters)))) =
      some (some (some ⟨⟨⟨1, 6⟩, ⟨1, 7⟩⟩, ⟨⟨1, 6⟩, ⟨1, 7⟩⟩⟩, some ["Y".data])) ∧
    (⟨⟨⟨0, 6⟩, ⟨0, 7⟩⟩, ⟨⟨0, 6⟩, ⟨0, 7⟩⟩⟩ : SymbolDefinition) ≠
      ⟨⟨⟨1, 6⟩, ⟨1, 7⟩⟩, ⟨⟨1, 6⟩, ⟨1, 7⟩⟩⟩ :=
  ⟨by decide, by decide, by decide⟩

/-- C2 (amended): the definition-once invariant holds in the plain
namespace — `addSymbol` never touches an entity that already has a
definition — but in the parameterized namespace a later
`addParameterizedRuleDefinition` on the same base name unconditionally
replaces the definition, kind, parameters and flag in place. -/
theorem c2_definition_set_once_amended (t : SymbolTable) (name : Str)
    (k : SymbolType) (d' : Option SymbolDefinition) (s : Symbol)
    (d : SymbolDefinition) (ps : List Str) (d2 : SymbolDefinition)
    (s2 : Symbol) (hp : t.plainLookup name = some s)
    (hd : s.definition = some d) (hq : t.paramLookup name = some s2) :
    (t.addSymbol name k d').1.plainLookup name = some s ∧
    (t.addParameterizedRuleDefinition name d2 ps).1.paramLookup name =
      some { s2 with definition := some d2, type := .ParameterizedRule,
                     parameters := some ps, isParameterized := true } := by
  refine ⟨?_, paramLookup_addPRD_present hq⟩
  rw [addSymbol_defined_frame hp hd]
  exact hp

/-- C2 witness for the amended statement, at a concrete table holding a
defined plain symbol and a parameterized entity of the same name. -/
theorem c2_definition_set_once_amended_witness :
    (SymbolTable.mk
      [⟨"a".data, .Rule, some ⟨⟨⟨0, 0⟩, ⟨0, 1⟩⟩, ⟨⟨0, 0⟩, ⟨0, 1⟩⟩⟩, [], [],
        none, none, false⟩]
      [⟨"a".data, .ParameterizedRule, some ⟨⟨⟨1, 0⟩, ⟨1, 1⟩⟩, ⟨⟨1, 0⟩, ⟨1, 1⟩⟩⟩,
        [], [], some ["X".data], none, true⟩] none).plainLookup "a".data =
      some ⟨"a".data, .Rule, some ⟨⟨⟨0, 0⟩, ⟨0, 1⟩⟩, ⟨⟨0, 0⟩, ⟨0, 1⟩⟩⟩, [], [],
        none, none, false⟩ ∧
    ((SymbolTable.mk
      [⟨"a".data, .Rule, some ⟨⟨⟨0, 0⟩, ⟨0, 1⟩⟩, ⟨⟨0, 0⟩, ⟨0, 1⟩⟩⟩, [], [],
        none, none, false⟩]
      [⟨"a".data, .ParameterizedRule, some ⟨⟨⟨1, 0⟩, ⟨1, 1⟩⟩, ⟨⟨1, 0⟩, ⟨1, 1⟩⟩⟩,
        [], [], some ["X".data], none, true⟩] none).addSymbol "a".data .Token
      (some ⟨⟨⟨2, 0⟩, ⟨2, 1⟩⟩, ⟨⟨2, 0⟩, ⟨2, 1⟩⟩⟩)).1.plainLookup "a".data =
      some ⟨"a".data, .Rule, some ⟨⟨⟨0, 0⟩, ⟨0, 1⟩⟩, ⟨⟨0, 0⟩, ⟨0, 1⟩⟩⟩, [], [],
        none, none, false⟩ := by
  refine ⟨by decide, ?_⟩
  exact (c2_definition_set_once_amended
    (SymbolTable.mk
      [⟨"a".data, .Rule, some ⟨⟨⟨0, 0⟩, ⟨0, 1⟩⟩, ⟨⟨0, 0⟩, ⟨0, 1⟩⟩⟩, [], [],
        none, none, false⟩]
      [⟨"a".data, .ParameterizedRule, some ⟨⟨⟨1, 0⟩, ⟨1, 1⟩⟩, ⟨⟨1, 0⟩, ⟨1, 1⟩⟩⟩,
        [], [], some ["X".data], none, true⟩] none)
    "a".data .Token (some ⟨⟨⟨2, 0⟩, ⟨2, 1⟩⟩, ⟨⟨2, 0⟩, ⟨2, 1⟩⟩⟩)
    ⟨"a".data, .Rule, some ⟨⟨⟨0, 0⟩, ⟨0, 1⟩⟩, ⟨⟨0, 0⟩, ⟨0, 1⟩⟩⟩, [], [],
      none, none, false⟩
    ⟨⟨⟨0, 0⟩, ⟨0, 1⟩⟩, ⟨⟨0, 0⟩, ⟨0, 1⟩⟩⟩
    ["Y".data] ⟨⟨⟨3, 0⟩, ⟨3, 1⟩⟩, ⟨⟨3, 0⟩, ⟨3, 1⟩⟩⟩
    ⟨"a".data, .ParameterizedRule, some ⟨⟨⟨1, 0⟩, ⟨1, 1⟩⟩, ⟨⟨1, 0⟩, ⟨1, 1⟩⟩⟩,
      [], [], some ["X".data], none, true⟩
    (by decide) (by decide) (by decide)).1

/-- C4 counterexample: inside the parameterized rule `foo(X)`, the
occurrence of the formal parameter `X` after `%prec` DOES produce an
ordinary reference (the `%prec` branch never consults the parameter set):
after analysing `%rule foo(X): a %prec X ;` the plain store holds an entity
`X` with exactly one reference. -/
theorem c4_prec_parameter_reference_counterexample :
    ((analyze "%rule foo(X): a %prec X ;\n".data).map
      (fun r => ((r.1.paramLookup "foo".data).map (fun s => s.parameters),
        (r.1.plainLookup "X".data).map (fun s => s.references.length)))) =
      some (some (some ["X".data]), some 1) := by decide

/-- C4 (amended): an identifier occurrence matching a formal parameter
records no ordinary reference when it appears as a bare body symbol or as a
call argument — but an occurrence after `%prec` does record one; no
undefined-symbol diagnostic is emitted in any of these cases (parameter
names are excluded by the validator).  First conjunct: the context-aware
argument parser never changes the plain entry of a parameter name; second:
a bare parameter occurrence leaves no trace in the plain store; third: the
`%prec` occurrence records exactly one reference yet the only diagnostic of
the pass is about `a`, not `X`. -/
theorem c4_parameter_shadowing_amended (tokens : List Token)
    (knownParameters : List Str) (name : Str) (idx : Nat) (t : SymbolTable)
    (idx' : Nat) (args' : List Str) (t' : SymbolTable)
    (hname : knownParameters.contains name = true)
    (heq : parseArgumentListWithContext tokens knownParameters idx t =
      some (idx', args', t')) :
    t'.plainLookup name = t.plainLookup name ∧
    ((analyze "%rule foo(X): X ;\n".data).map
      (fun r => r.1.plainLookup "X".data)) = some none ∧
    ((analyze "%rule foo(X): a %prec X ;\n".data).map
      (fun r => ((r.1.plainLookup "X".data).map (fun s => s.references),
        r.2))) =
      some (some [⟨⟨⟨0, 22⟩, ⟨0, 23⟩⟩⟩],
        [undefinedDiag "a".data ⟨⟨0, 14⟩, ⟨0, 15⟩⟩]) :=
  ⟨parseArgumentListWithContextLoop_param_preserves tokens knownParameters
      hname _ _ _ _ _ _ _ _ heq,
    by decide, by decide⟩

/-- C4 witness: the amended statement applied to a concrete argument list
`(Y)` with `Y` a known parameter — no reference is recorded for it. -/
theorem c4_parameter_shadowing_amended_witness :
    (["Y".data] : List Str).contains "Y".data = true ∧
    parseArgumentListWithContext
      [⟨.IDENTIFIER, "Y".data, 0, 0, 1⟩, ⟨.SPECIAL, ")".data, 0, 1, 1⟩]
      ["Y".data] 0 SymbolTable.empty =
      some (2, ["Y".data], SymbolTable.empty) ∧
    SymbolTable.empty.plainLookup "Y".data =
      SymbolTable.empty.plainLookup "Y".data :=
  ⟨by decide, by decide,
    (c4_parameter_shadowing_amended
      [⟨.IDENTIFIER, "Y".data, 0, 0, 1⟩, ⟨.SPECIAL, ")".data, 0, 1, 1⟩]
      ["Y".data] "Y".data 0 SymbolTable.empty 2 ["Y".data] SymbolTable.empty
      (by decide) (by decide)).1⟩

/-- C8: the parameterized-rule scenario — analysing
`%rule list(X): %empty | list(X) X ;` / `%%` / `prog: list(stmt) ;` yields a
parameterized entity `list` with parameter list `["X"]`, no plain entity `X`
at all (zero ordinary references to `X`), exactly one ordinary reference to
`stmt`, and exactly one parameterized call against `list` whose argument
list is `["stmt"]`. -/
theorem c8_parameterized_rule_scenario :
    ((analyze "%rule list(X): %empty | list(X) X ;\n%%\nprog: list(stmt) ;\n".data).map
      (fun r =>
        ((r.1.paramLookup "list".data).map (fun s => s.parameters),
         r.1.plainLookup "X".data,
         (r.1.plainLookup "stmt".data).map (fun s => s.references.length),
         (r.1.paramLookup "list".data).map (fun s =>
           (s.parameterizedCalls.filter
             (fun c => c.arguments = ["stmt".data])).length)))) =
      some (some (some ["X".data]), none, some 1, some 1) := by decide

/-- C9: Termination — for every input text one full analysis pass (scan,
parse, validate) terminates: `analyze` always returns a result.  (The
embedding makes every loop a fuel-indexed recursion that fails on fuel
exhaustion — the proof shows the input-size fuel bound always suffices
because every scanning and token-skipping loop strictly advances its
cursor, see `scanStep_advance` and the `_spec` lemmas.) -/
theorem c9_analysis_terminates : ∀ text : Str, (analyze text).isSome := by
  intro text
  obtain ⟨t, d, heq, -, -⟩ := analyze_spec text
  simp [heq]

/-- C10: First definition wins silently — `addSymbol` on a name whose
entity already holds a definition returns the table completely unchanged
(same definition, kind, tag and references, and nothing recorded anywhere),
and hands back the stored entity; consequently a later `%start` declaration
naming an already-defined symbol leaves the table untouched while consuming
its tokens. -/
theorem c10_first_definition_wins (t : SymbolTable) (name : Str)
    (ty : SymbolType) (d' : Option SymbolDefinition) (s : Symbol)
    (d : SymbolDefinition) (tokens : List Token) (idx : Nat) (tk : Token)
    (hp : t.plainLookup name = some s) (hd : s.definition = some d)
    (htok : tokens.get? (idx + 1) = some tk)
    (hty : tk.type = TokenType.IDENTIFIER) (hval : tk.value = name) :
    t.addSymbol name ty d' = (t, s) ∧
    parseStartDeclaration tokens idx t = some (idx + 1 + 1, t) := by
  refine ⟨addSymbol_defined_frame hp hd, ?_⟩
  unfold parseStartDeclaration
  simp only [htok]
  rw [if_pos hty, hval, addSymbol_defined_frame hp hd]

/-- C10 witness: a table defining `NUM` as a token, hit by a second
defining occurrence and by a `%start NUM`. -/
theorem c10_first_definition_wins_witness :
    (SymbolTable.mk
      [⟨"NUM".data, .Token, some ⟨⟨⟨0, 7⟩, ⟨0, 10⟩⟩, ⟨⟨0, 7⟩, ⟨0, 10⟩⟩⟩, [], [],
        none, none, false⟩] [] none).addSymbol "NUM".data .Rule
      (some ⟨⟨⟨1, 0⟩, ⟨1, 3⟩⟩, ⟨⟨1, 0⟩, ⟨1, 3⟩⟩⟩) =
      ((SymbolTable.mk
        [⟨"NUM".data, .Token, some ⟨⟨⟨0, 7⟩, ⟨0, 10⟩⟩, ⟨⟨0, 7⟩, ⟨0, 10⟩⟩⟩, [], [],
          none, none, false⟩] [] none),
       ⟨"NUM".data, .Token, some ⟨⟨⟨0, 7⟩, ⟨0, 10⟩⟩, ⟨⟨0, 7⟩, ⟨0, 10⟩⟩⟩, [], [],
        none, none, false⟩) ∧
    parseStartDeclaration
      [⟨.DIRECTIVE, "%start".data, 1, 0, 6⟩, ⟨.IDENTIFIER, "NUM".data, 1, 7, 3⟩]
      0 (SymbolTable.mk
        [⟨"NUM".data, .Token, some ⟨⟨⟨0, 7⟩, ⟨0, 10⟩⟩, ⟨⟨0, 7⟩, ⟨0, 10⟩⟩⟩, [], [],
          none, none, false⟩] [] none) =
      some (0 + 1 + 1, SymbolTable.mk
        [⟨"NUM".data, .Token, some ⟨⟨⟨0, 7⟩, ⟨0, 10⟩⟩, ⟨⟨0, 7⟩, ⟨0, 10⟩⟩⟩, [], [],
          none, none, false⟩] [] none) :=
  c10_first_definition_wins
    (SymbolTable.mk
      [⟨"NUM".data, .Token, some ⟨⟨⟨0, 7⟩, ⟨0, 10⟩⟩, ⟨⟨0, 7⟩, ⟨0, 10⟩⟩⟩, [], [],
        none, none, false⟩] [] none)
    "NUM".data .Rule
    (some ⟨⟨⟨1, 0⟩, ⟨1, 3⟩⟩, ⟨⟨1, 0⟩, ⟨1, 3⟩⟩⟩)
    ⟨"NUM".data, .Token, some ⟨⟨⟨0, 7⟩, ⟨0, 10⟩⟩, ⟨⟨0, 7⟩, ⟨0, 10⟩⟩⟩, [], [],
      none, none, false⟩
    ⟨⟨⟨0, 7⟩, ⟨0, 10⟩⟩, ⟨⟨0, 7⟩, ⟨0, 10⟩⟩⟩
    [⟨.DIRECTIVE, "%start".data, 1, 0, 6⟩, ⟨.IDENTIFIER, "NUM".data, 1, 7, 3⟩]
    0 ⟨.IDENTIFIER, "NUM".data, 1, 7, 3⟩ (by decide) (by decide) (by decide)
    (by decide) (by decide)

/-- C3: Undefined-symbol policy — after a successful analysis pass, a
symbol that carries at least one reference and no definition receives an
undefined-symbol warning at a reference exactly when its name is NOT
excluded (not a collected formal parameter, character literal, builtin
parameterized-rule name, all-caps/underscore likely token, or common
parameter name). -/
theorem c3_undefined_symbol_policy (text : Str) (t : SymbolTable)
    (d : List Diagnostic) (h : analyze text = some (t, d)) (s : Symbol)
    (hs : s ∈ t.getAllSymbols) (hrefs : s.references ≠ [])
    (hdef : s.definition = none) (r : SymbolReference)
    (hr : r ∈ s.references) :
    (undefinedDiag s.name r.range ∈ d ↔ excludedName t s.name = false) := by
  obtain ⟨t0, d0, heq, hwf, hval⟩ := analyze_spec text
  rw [h] at heq
  obtain ⟨rfl, rfl⟩ := Prod.mk.inj (Option.some.inj heq)
  constructor
  · intro hmem
    by_contra hexne
    have hex : excludedName t s.name = true := by
      cases hx : excludedName t s.name
      · exact absurd hx hexne
      · rfl
    exact not_mem_validate_of_excluded hex (hval ▸ hmem)
  · intro hex
    rw [hval]
    exact mem_validate_of_not_excluded hwf hs hrefs hdef hex r hr

/-- C3 witness: in `%%` / `foo: bar ;` the body symbol `bar` is referenced,
undefined and not excluded, and the pass indeed emits its warning. -/
theorem c3_undefined_symbol_policy_witness :
    analyze "%%\nfoo: bar ;\n".data =
      some (⟨[⟨"foo".data, .Rule, some ⟨⟨⟨1, 0⟩, ⟨1, 3⟩⟩, ⟨⟨1, 0⟩, ⟨1, 3⟩⟩⟩,
          [], [], none, none, false⟩,
        ⟨"bar".data, .Nonterminal, none, [⟨⟨⟨1, 5⟩, ⟨1, 8⟩⟩⟩], [], none, none,
          false⟩], [], none⟩,
        [unusedDiag "foo".data ⟨⟨1, 0⟩, ⟨1, 3⟩⟩,
         undefinedDiag "bar".data ⟨⟨1, 5⟩, ⟨1, 8⟩⟩]) ∧
    (undefinedDiag "bar".data ⟨⟨1, 5⟩, ⟨1, 8⟩⟩ ∈
        [unusedDiag "foo".data ⟨⟨1, 0⟩, ⟨1, 3⟩⟩,
         undefinedDiag "bar".data ⟨⟨1, 5⟩, ⟨1, 8⟩⟩] ↔
      excludedName
        ⟨[⟨"foo".data, .Rule, some ⟨⟨⟨1, 0⟩, ⟨1, 3⟩⟩, ⟨⟨1, 0⟩, ⟨1, 3⟩⟩⟩,
            [], [], none, none, false⟩,
          ⟨"bar".data, .Nonterminal, none, [⟨⟨⟨1, 5⟩, ⟨1, 8⟩⟩⟩], [], none, none,
            false⟩], [], none⟩ "bar".data = false) :=
  ⟨by decide,
    c3_undefined_symbol_policy "%%\nfoo: bar ;\n".data
      ⟨[⟨"foo".data, .Rule, some ⟨⟨⟨1, 0⟩, ⟨1, 3⟩⟩, ⟨⟨1, 0⟩, ⟨1, 3⟩⟩⟩,
          [], [], none, none, false⟩,
        ⟨"bar".data, .Nonterminal, none, [⟨⟨⟨1, 5⟩, ⟨1, 8⟩⟩⟩], [], none, none,
          false⟩], [], none⟩
      [unusedDiag "foo".data ⟨⟨1, 0⟩, ⟨1, 3⟩⟩,
       undefinedDiag "bar".data ⟨⟨1, 5⟩, ⟨1, 8⟩⟩]
      (by decide)
      ⟨"bar".data, .Nonterminal, none, [⟨⟨⟨1, 5⟩, ⟨1, 8⟩⟩⟩], [], none, none,
        false⟩
      (by decide) (by decide) (by decide) ⟨⟨⟨1, 5⟩, ⟨1, 8⟩⟩⟩ (by decide)⟩

/-- C5 counterexample: ranges are created half-open (`end` = column +
length, one past the last character), but position lookup treats them as
CLOSED (`offset <= end`): for the one-symbol document `abc` whose
definition occupies columns 0–3, a lookup at character 3 — one past the
last character of the occurrence — still returns the symbol. -/
theorem c5_end_position_hit_counterexample :
    createRange ⟨.IDENTIFIER, "abc".data, 0, 0, 3⟩ = ⟨⟨0, 0⟩, ⟨0, 3⟩⟩ ∧
    SymbolTable.getSymbolAtPosition
      ⟨[⟨"abc".data, .Rule, some ⟨⟨⟨0, 0⟩, ⟨0, 3⟩⟩, ⟨⟨0, 0⟩, ⟨0, 3⟩⟩⟩, [], [],
        none, none, false⟩], [], none⟩
      "abc".data ⟨0, 3⟩ =
      some ⟨"abc".data, .Rule, some ⟨⟨⟨0, 0⟩, ⟨0, 3⟩⟩, ⟨⟨0, 0⟩, ⟨0, 3⟩⟩⟩, [], [],
        none, none, false⟩ :=
  ⟨by decide, by decide⟩

/-- C5 (amended): a token of length n starting at column c yields the range
(line c)–(line c+n) — the end one past the last character — but containment
in position lookup is closed at both ends, so the end position of a
definition name range itself resolves to that symbol (here for a table
whose plain store holds just that symbol). -/
theorem c5_half_open_ranges_amended (tk : Token) (doc : Str) (sym : Symbol)
    (st : Option Str) (d : SymbolDefinition) (hd : sym.definition = some d)
    (hle : offsetAt doc d.nameRange.start ≤ offsetAt doc d.nameRange.endPos) :
    createRange tk = ⟨⟨tk.line, tk.column⟩, ⟨tk.line, tk.column + tk.length⟩⟩ ∧
    SymbolTable.getSymbolAtPosition ⟨[sym], [], st⟩ doc d.nameRange.endPos =
      some sym := by
  refine ⟨rfl, ?_⟩
  unfold SymbolTable.getSymbolAtPosition
  dsimp only
  rw [List.foldl_nil, List.foldl_cons, List.foldl_nil]
  unfold scanPlainSymbol
  rw [hd]
  dsimp only
  have hhit : considerHit doc (offsetAt doc d.nameRange.endPos) d.nameRange 50
      sym (none, -1) = (some sym, 50) := by
    unfold considerHit
    rw [if_pos]
    exact ⟨hle, le_refl _, by norm_num⟩
  rw [hhit, foldl_considerHit_ge doc (offsetAt doc d.nameRange.endPos) sym 10
    sym.references (some sym, 50) (by norm_num)]

/-- C5 witness: the amended statement at the concrete `abc` document. -/
theorem c5_half_open_ranges_amended_witness :
    (⟨"abc".data, .Rule, some ⟨⟨⟨0, 0⟩, ⟨0, 3⟩⟩, ⟨⟨0, 0⟩, ⟨0, 3⟩⟩⟩, [], [],
        none, none, false⟩ : Symbol).definition =
      some ⟨⟨⟨0, 0⟩, ⟨0, 3⟩⟩, ⟨⟨0, 0⟩, ⟨0, 3⟩⟩⟩ ∧
    (createRange ⟨.IDENTIFIER, "abc".data, 0, 0, 3⟩ = ⟨⟨0, 0⟩, ⟨0, 0 + 3⟩⟩ ∧
    SymbolTable.getSymbolAtPosition
      ⟨[⟨"abc".data, .Rule, some ⟨⟨⟨0, 0⟩, ⟨0, 3⟩⟩, ⟨⟨0, 0⟩, ⟨0, 3⟩⟩⟩, [], [],
        none, none, false⟩], [], none⟩ "abc".data ⟨0, 3⟩ =
      some ⟨"abc".data, .Rule, some ⟨⟨⟨0, 0⟩, ⟨0, 3⟩⟩, ⟨⟨0, 0⟩, ⟨0, 3⟩⟩⟩, [], [],
        none, none, false⟩) :=
  ⟨by decide,
    c5_half_open_ranges_amended ⟨.IDENTIFIER, "abc".data, 0, 0, 3⟩ "abc".data
      ⟨"abc".data, .Rule, some ⟨⟨⟨0, 0⟩, ⟨0, 3⟩⟩, ⟨⟨0, 0⟩, ⟨0, 3⟩⟩⟩, [], [],
        none, none, false⟩ none ⟨⟨⟨0, 0⟩, ⟨0, 3⟩⟩, ⟨⟨0, 0⟩, ⟨0, 3⟩⟩⟩
      (by decide) (by decide)⟩

/-- C6 counterexample: an unterminated block comment does NOT discard the
rest of the line.  In the one-line input `/* x` no close marker `*/` exists
anywhere in the text, so the comment branch is skipped entirely and the
scanner emits the `*` special token and the identifier `x` from inside the
comment. -/
theorem c6_unterminated_comment_counterexample :
    tokenize "/* x".data =
      some [⟨.SPECIAL, "*".data, 0, 1, 1⟩, ⟨.IDENTIFIER, "x".data, 0, 3, 1⟩] := by
  decide

/-- C6 (amended): a block comment opener `/*` is honoured only when a close
marker `*/` occurs in the full text at or after `indexOf(line) + column + 2`;
in that case, if the current line itself has no close marker at or after
`column + 2`, the scanner discards the remainder of the line (the inner loop
returns no further tokens for it). -/
theorem c6_block_comment_discard_amended (text line : Str)
    (lineNum col fuel : Nat) (hcol : col < line.length)
    (hopen : (line.drop col).take 2 = "/*".data)
    (hglobal : (findSubFrom "*/".data text
      ((findSubFrom line text 0).getD 0 + col + 2)).isSome = true)
    (hlocal : findSubFrom "*/".data line (col + 2) = none) :
    scanStep text line lineNum col = none ∧
    tokenizeLine text line lineNum (fuel + 1) col = some [] := by
  have hget : line.get? col = some '/' := by
    cases hdc : line.drop col with
    | nil => rw [hdc] at hopen; exact absurd hopen (by decide)
    | cons a rest =>
      rw [hdc, List.take_succ_cons,
        show "/*".data = '/' :: ['*'] from rfl] at hopen
      injection hopen with ha _
      have h2 := (List.get?_drop line col 0).symm
      rw [hdc] at h2
      simpa [ha] using h2
  have hgetD : line.getD col ' ' = '/' := by
    rw [List.getD_eq_get?, hget]; rfl
  have hstep : scanStep text line lineNum col = none := by
    simp only [scanStep]
    rw [hgetD, hopen]
    rw [if_neg (show ¬isJsSpace '/' = true from by decide)]
    rw [if_neg (show ¬("/*".data = "//".data) from by decide)]
    rw [hglobal]
    rw [if_pos (by decide)]
    rw [hlocal]
  refine ⟨hstep, ?_⟩
  rw [tokenizeLine_succ, if_pos hcol, hstep]

/-- C6 witness: on the two-line text `/* x` / `*/` the global close marker
exists but line 0 has no local close, so line 0 is discarded wholesale. -/
theorem c6_block_comment_discard_amended_witness :
    (0 < "/* x".data.length ∧
     ("/* x".data.drop 0).take 2 = "/*".data ∧
     (findSubFrom "*/".data "/* x\n*/".data
       ((findSubFrom "/* x".data "/* x\n*/".data 0).getD 0 + 0 + 2)).isSome = true ∧
     findSubFrom "*/".data "/* x".data (0 + 2) = none) ∧
    (scanStep "/* x\n*/".data "/* x".data 0 0 = none ∧
     tokenizeLine "/* x\n*/".data "/* x".data 0 (4 + 1) 0 = some []) :=
  ⟨⟨by decide, by decide, by decide, by decide⟩,
    c6_block_comment_discard_amended "/* x\n*/".data "/* x".data 0 0 4
      (by decide) (by decide) (by decide) (by decide)⟩

/-- C7 counterexample: directive recognition has no word boundary and tries
the alternation's spellings in fixed order, so `%after-shift-error-token`
scans as the directive `%after-shift` followed by the identifier
`error-token`, and `%tokenize` scans as `%token` followed by `ize` — the
longest (or whole-word) spelling is NOT chosen. -/
theorem c7_directive_prefix_counterexample :
    tokenize "%after-shift-error-token".data =
      some [⟨.DIRECTIVE, "%after-shift".data, 0, 0, 12⟩,
        ⟨.IDENTIFIER, "error-token".data, 0, 13, 11⟩] ∧
    tokenize "%tokenize".data =
      some [⟨.DIRECTIVE, "%token".data, 0, 0, 6⟩,
        ⟨.IDENTIFIER, "ize".data, 0, 6, 3⟩] ∧
    "after-shift-error-token".data ∈ directiveSpellings ∧
    "after-shift".data ∈ directiveSpellings := by
  refine ⟨by decide, by decide, by decide, by decide⟩

/-- C7 (amended): at a `%` that is not `%%`, `%{` or `%}` and opens no
comment, the scanner takes the FIRST spelling of the alternation list (in
its fixed order) that is a textual prefix of the rest of the line — no word
boundary is required — and emits `%` + that spelling as a DIRECTIVE token,
advancing past it. -/
theorem c7_directive_first_match_amended (text line : Str)
    (lineNum col : Nat) (w : Str)
    (hc : line.get? col = some '%')
    (h2 : (line.drop col).take 2 ≠ "%%".data)
    (h3 : (line.drop col).take 2 ≠ "%\x7b".data)
    (h4 : (line.drop col).take 2 ≠ "%\x7d".data)
    (hdm : directiveFirstMatch (line.drop (col + 1)) = some w) :
    w ∈ directiveSpellings ∧ w.isPrefixOf (line.drop (col + 1)) = true ∧
    scanStep text line lineNum col =
      some (some ⟨.DIRECTIVE, '%' :: w, lineNum, col, w.length + 1⟩,
        col + (w.length + 1)) := by
  have hpref : w.isPrefixOf (line.drop (col + 1)) = true := by
    have := List.find?_some hdm
    simpa using this
  refine ⟨List.mem_of_find?_eq_some hdm, hpref, ?_⟩
  have hgetD : line.getD col ' ' = '%' := by
    rw [List.getD_eq_get?, hc]; rfl
  have hdrop : line.drop col = '%' :: line.drop (col + 1) :=
    drop_eq_cons_of_get? hc
  simp only [scanStep]
  rw [hgetD, hdrop]
  rw [if_neg (show ¬isJsSpace '%' = true from by decide)]
  rw [List.take_succ_cons]
  have htake : ('%' :: (line.drop (col + 1)).take 1) =
      (line.drop col).take 2 := by
    rw [hdrop, List.take_succ_cons]
  rw [if_neg (show ¬('%' :: (line.drop (col + 1)).take 1 = "//".data) from by
    intro hx
    rw [show "//".data = '/' :: ['/'] from rfl] at hx
    injection hx with h1 _
    exact absurd h1 (by decide))]
  rw [if_neg (show ¬((decide ('%' :: (line.drop (col + 1)).take 1 = "/*".data) &&
      (findSubFrom "*/".data text
        ((findSubFrom line text 0).getD 0 + col + 2)).isSome) = true) from by
    intro hx
    obtain ⟨h1, -⟩ := (Bool.and_eq_true _ _).mp hx
    have h1' := of_decide_eq_true h1
    rw [show "/*".data = '/' :: ['*'] from rfl] at h1'
    injection h1' with h1a _
    exact absurd h1a (by decide))]
  rw [if_neg (htake ▸ h2), if_neg (htake ▸ h3), if_neg (htake ▸ h4)]
  rw [if_pos rfl, hdm]

/-- C7 witness: the amended statement at `%tokenize`, where the first
matching spelling is `token`. -/
theorem c7_directive_first_match_amended_witness :
    ("%tokenize".data.get? 0 = some '%' ∧
     ("%tokenize".data.drop 0).take 2 ≠ "%%".data ∧
     ("%tokenize".data.drop 0).take 2 ≠ "%\x7b".data ∧
     ("%tokenize".data.drop 0).take 2 ≠ "%\x7d".data ∧
     directiveFirstMatch ("%tokenize".data.drop (0 + 1)) = some "token".data) ∧
    ("token".data ∈ directiveSpellings ∧
     "token".data.isPrefixOf ("%tokenize".data.drop (0 + 1)) = true ∧
     scanStep "%tokenize".data "%tokenize".data 0 0 =
       some (some ⟨.DIRECTIVE, '%' :: "token".data, 0, 0,
         "token".data.length + 1⟩, 0 + ("token".data.length + 1))) :=
  ⟨⟨by decide, by decide, by decide, by decide, by decide⟩,
    c7_directive_first_match_amended "%tokenize".data "%tokenize".data 0 0
      "token".data (by decide) (by decide) (by decide) (by decide) (by decide)⟩

end Lrama
